import Mathlib

/-!
Verification development for the `apidiags` package.

The package defines diagnostics paths in two forms:

* a tagged union `Step` with an ordered sequence type `Steps`, together with a
  JSON codec (`Steps.MarshalJSON` / `Steps.UnmarshalJSON`); and
* a flat `Pointer` form built from escaped path segments.

The definitions below are a shallow embedding of those Go functions.  Pure Go
functions become Lean functions; the Go standard-library JSON machinery used by
the codec (`json.Marshal` of the generic record slice, and `json.Decoder` with
`UseNumber` decoding into the generic record slice) is modelled explicitly:
a faithful renderer for the marshal direction and a faithful
character-list parser plus struct-field mapping for the decode direction.
Numbers are carried as their literal text (the `json.Number` representation
selected by `dec.UseNumber()`), and `strconv.ParseInt(lit, 10, 64)` is modelled
exactly, so integer indices are exact and 64-bit bounded, never floating point.
-/

namespace apidiags

/-- The `Step` interface with its six sanctioned implementations
(`BodyStep`, `HeaderStep`, `URLParamStep`, `ArrayIndexStep`,
`ObjectPropertyStep`, `StringIndexStep`).  The Go payloads are `string`
(modelled by `String`) and `int64` (modelled by `Int`; the 64-bit bound of
constructible Go values is tracked by `stepInBounds`). -/
inductive Step where
  | BodyStep : Step
  | HeaderStep (name : String) : Step
  | URLParamStep (name : String) : Step
  | ArrayIndexStep (index : Int) : Step
  | ObjectPropertyStep (name : String) : Step
  | StringIndexStep (index : Int) : Step
deriving DecidableEq

/-- `Steps` is an ordered collection of `Step` values (`type Steps []Step`). -/
abbrev Steps := List Step

/-- `func (steps Steps) AddStep(step Step) Steps`: append one step. -/
def Steps.AddStep (steps : Steps) (step : Step) : Steps :=
  steps ++ [step]

/-- `func BodyPath() Steps`. -/
def BodyPath : Steps := [Step.BodyStep]

/-- `func HeaderPath(header string) Steps`. -/
def HeaderPath (header : String) : Steps := [Step.HeaderStep header]

/-- `func URLParamPath(param string) Steps`. -/
def URLParamPath (param : String) : Steps := [Step.URLParamStep param]

/-- Model of the dynamic value stored in a decoded `*any` field by
`encoding/json` when `dec.UseNumber()` is set: JSON strings become Go
strings, numbers become `json.Number` (the literal text), booleans become
`bool`, arrays become `[]any`, objects become `map[string]any`, and a
nested `null` becomes a nil interface value. -/
inductive JValue where
  | null : JValue
  | bool (b : Bool) : JValue
  | num (lit : String) : JValue
  | str (s : String) : JValue
  | arr (items : List JValue) : JValue
  | obj (fields : List (String × JValue)) : JValue

/-- The intermediate wire record
`type genericStep struct { Kind string; Value *any }`.
A nil `Value` pointer is `none`. -/
structure genericStep where
  Kind : String
  Value : Option JValue

/-- The two error classes of `strconv.ParseInt`: `ErrSyntax` (modelled by
`errSyn`) and `ErrRange` (modelled by `errRange`). -/
inductive StrconvError where
  | errSyn : StrconvError
  | errRange : StrconvError
deriving DecidableEq

/-- Is `c` an ASCII decimal digit? -/
def isDig (c : Char) : Bool :=
  decide (48 ≤ c.toNat ∧ c.toNat ≤ 57)

/-- Accumulate the base-10 value of a digit run; `none` on a non-digit.
Models the digit loop of `strconv.ParseUint` (exact value, no rounding). -/
def parseDigitsAccum (acc : Nat) : List Char → Option Nat
  | [] => some acc
  | c :: rest =>
    if isDig c then parseDigitsAccum (acc * 10 + (c.toNat - 48)) rest
    else none

/-- Model of `strconv.ParseInt(s, 10, 64)` as called by `json.Number.Int64`:
an optional sign followed by at least one digit, with the signed 64-bit
range check.  Out-of-range values give `errRange`; any other malformed
input gives `errSyn`. -/
def ParseInt64 (s : String) : Except StrconvError Int :=
  match s.data with
  | [] => .error .errSyn
  | c :: rest =>
    let signed : Bool × List Char :=
      if c = '+' then (false, rest)
      else if c = '-' then (true, rest)
      else (false, c :: rest)
    match signed.2 with
    | [] => .error .errSyn
    | d :: ds =>
      match parseDigitsAccum 0 (d :: ds) with
      | none => .error .errSyn
      | some n =>
        if signed.1 then
          if n > 2 ^ 63 then .error .errRange else .ok (-(n : Int))
        else
          if n ≥ 2 ^ 63 then .error .errRange else .ok (n : Int)

/-- The errors produced by `Steps.UnmarshalJSON`, one constructor per
`return`-with-error site, each carrying exactly the data interpolated into
the corresponding `fmt.Errorf` call:

* `malformed`: the error of `dec.Decode(&genSteps)` itself (bad JSON
  structure or a record that does not fit the `genericStep` struct);
* `noValue pos`: "error parsing step %d: no value";
* `wrongType pos wanted got`: "error parsing step %d: wanted %s, got %T"
  (`wanted` is "string" or "json.Number");
* `numError pos err`: "error parsing step %d: %w" wrapping the
  `json.Number.Int64` failure;
* `unknownKind pos kind value`: "error parsing step %d: unexpected step
  kind %q with value type %T". -/
inductive DecodeError where
  | malformed (msg : String) : DecodeError
  | noValue (pos : Nat) : DecodeError
  | wrongType (pos : Nat) (wanted : String) (got : JValue) : DecodeError
  | numError (pos : Nat) (err : StrconvError) : DecodeError
  | unknownKind (pos : Nat) (kind : String) (value : Option JValue) : DecodeError

/-- The body of the `switch step.Kind` dispatch inside
`Steps.UnmarshalJSON` (part_000 lines 88-146) for the record at position
`pos`: produce the `Step` for one generic record or the error for that
record. -/
def decodeGenericStep (pos : Nat) (step : genericStep) : Except DecodeError Step :=
  if step.Kind = "body" then
    .ok Step.BodyStep
  else if step.Kind = "header" then
    match step.Value with
    | none => .error (.noValue pos)
    | some v =>
      match v with
      | .str header => .ok (Step.HeaderStep header)
      | _ => .error (.wrongType pos "string" v)
  else if step.Kind = "url_param" then
    match step.Value with
    | none => .error (.noValue pos)
    | some v =>
      match v with
      | .str param => .ok (Step.URLParamStep param)
      | _ => .error (.wrongType pos "string" v)
  else if step.Kind = "array_index" then
    match step.Value with
    | none => .error (.noValue pos)
    | some v =>
      match v with
      | .num index =>
        match ParseInt64 index with
        | .error e => .error (.numError pos e)
        | .ok idx => .ok (Step.ArrayIndexStep idx)
      | _ => .error (.wrongType pos "json.Number" v)
  else if step.Kind = "object_property" then
    match step.Value with
    | none => .error (.noValue pos)
    | some v =>
      match v with
      | .str property => .ok (Step.ObjectPropertyStep property)
      | _ => .error (.wrongType pos "string" v)
  else if step.Kind = "string_index" then
    match step.Value with
    | none => .error (.noValue pos)
    | some v =>
      match v with
      | .num index =>
        match ParseInt64 index with
        | .error e => .error (.numError pos e)
        | .ok idx => .ok (Step.StringIndexStep idx)
      | _ => .error (.wrongType pos "json.Number" v)
  else
    .error (.unknownKind pos step.Kind step.Value)

/-- The `for pos, step := range genSteps` loop of `Steps.UnmarshalJSON`,
threading the position counter and the `results` accumulator (which starts
empty and grows by `AddStep`); it returns the first error encountered. -/
def unmarshalFrom (pos : Nat) (results : Steps) : List genericStep → Except DecodeError Steps
  | [] => .ok results
  | g :: rest =>
    match decodeGenericStep pos g with
    | .error e => .error e
    | .ok s => unmarshalFrom (pos + 1) (results.AddStep s) rest

/-- The record-processing phase of `Steps.UnmarshalJSON`, run after
`dec.Decode` has produced the `[]genericStep` slice. -/
def unmarshalLoop (genSteps : List genericStep) : Except DecodeError Steps :=
  unmarshalFrom 0 [] genSteps

/-- The dynamic value placed into a `genericStep.Value` by
`Steps.MarshalJSON` before serialization: a Go `string` or an `int64`. -/
inductive OutValue where
  | str (s : String) : OutValue
  | int (i : Int) : OutValue
deriving DecidableEq

/-- The wire record as built on the marshal side (`Value *any` holding a
string or an int64; `none` is a nil pointer, omitted by `omitempty`). -/
structure genericStepOut where
  Kind : String
  Value : Option OutValue
deriving DecidableEq

/-- The `switch value := step.(type)` loop of `Steps.MarshalJSON`
(part_000 lines 155-177): one generic record per step, in order.  The
defensive `default` branch of the Go code is unreachable here because
`Step` is a closed inductive type (the spec notes the branch exists only
because Go models the union as an open interface). -/
def marshalRecords (steps : Steps) : List genericStepOut :=
  steps.map fun step =>
    match step with
    | Step.BodyStep => ⟨"body", none⟩
    | Step.HeaderStep value => ⟨"header", some (.str value)⟩
    | Step.URLParamStep value => ⟨"url_param", some (.str value)⟩
    | Step.ArrayIndexStep value => ⟨"array_index", some (.int value)⟩
    | Step.ObjectPropertyStep value => ⟨"object_property", some (.str value)⟩
    | Step.StringIndexStep value => ⟨"string_index", some (.int value)⟩

/-- The generic record each Step variant must encode to, written from the
spec's table in section 4.2 ("Body yields kind body with no value field;
Header(name) yields kind header with value name; ..."), to be compared
with the records `Steps.MarshalJSON` actually builds. -/
def wireRecord : Step → genericStepOut
  | Step.BodyStep => ⟨"body", none⟩
  | Step.HeaderStep name => ⟨"header", some (.str name)⟩
  | Step.URLParamStep name => ⟨"url_param", some (.str name)⟩
  | Step.ArrayIndexStep i => ⟨"array_index", some (.int i)⟩
  | Step.ObjectPropertyStep name => ⟨"object_property", some (.str name)⟩
  | Step.StringIndexStep i => ⟨"string_index", some (.int i)⟩

/-- The ASCII digit character for `n < 10`. -/
def digitChar (n : Nat) : Char := Char.ofNat (48 + n)

/-- Fuel-indexed base-10 digit rendering (most significant first). -/
def natDigitsAux : Nat → Nat → List Char
  | 0, _ => []
  | fuel + 1, n =>
    if n < 10 then [digitChar n]
    else natDigitsAux fuel (n / 10) ++ [digitChar (n % 10)]

/-- Base-10 digits of a natural number, as rendered by `strconv`. -/
def natDigits (n : Nat) : List Char := natDigitsAux (n + 1) n

/-- Model of `strconv.AppendInt(b, i, 10)`, which `encoding/json` uses to
emit an `int64` value: minus sign for negatives, then decimal digits. -/
def intLit (i : Int) : List Char :=
  if i < 0 then '-' :: natDigits (-i).toNat else natDigits i.toNat

/-- Lowercase hex digit, per the `encoding/json` table "0123456789abcdef". -/
def hexDigitChar (n : Nat) : Char :=
  if n < 10 then Char.ofNat (48 + n) else Char.ofNat (87 + n)

/-- The `\uXXXX` escape emitted by `encoding/json` for a rune. -/
def uEscape (c : Char) : List Char :=
  ['\\', 'u', hexDigitChar (c.toNat / 4096 % 16), hexDigitChar (c.toNat / 256 % 16),
    hexDigitChar (c.toNat / 16 % 16), hexDigitChar (c.toNat % 16)]

/-- How `encoding/json` (with its default HTML escaping, as used by the
plain `json.Marshal` call in `Steps.MarshalJSON`) emits one character of a
string: quote and backslash get a backslash escape; newline, carriage
return and tab get their short escapes; other control characters, the
HTML-sensitive characters and the line separators U+2028/U+2029 get
`\uXXXX`; everything else is emitted as-is. -/
def escapeChar (c : Char) : List Char :=
  if c = '"' then ['\\', '"']
  else if c = '\\' then ['\\', '\\']
  else if c = '\n' then ['\\', 'n']
  else if c = '\r' then ['\\', 'r']
  else if c = '\t' then ['\\', 't']
  else if c = '<' ∨ c = '>' ∨ c = '&' then uEscape c
  else if c.toNat < 32 then uEscape c
  else if c.toNat = 0x2028 ∨ c.toNat = 0x2029 then uEscape c
  else [c]

/-- Escape every character of a string body. -/
def escapeChars : List Char → List Char
  | [] => []
  | c :: rest => escapeChar c ++ escapeChars rest

/-- A JSON string literal as emitted by `encoding/json`. -/
def renderString (s : String) : List Char :=
  '"' :: escapeChars s.data ++ ['"']

/-- How `encoding/json` emits a marshal-side record value. -/
def renderOutValue : OutValue → List Char
  | .str s => renderString s
  | .int i => intLit i

/-- Comma-join a list of already-rendered pieces. -/
def joinComma : List (List Char) → List Char
  | [] => []
  | [x] => x
  | x :: y :: rest => x ++ ',' :: joinComma (y :: rest)

/-- The fields `encoding/json` emits for one `genericStep` record, in
declaration order, honouring the `omitempty` options on both fields (an
empty `Kind` and a nil `Value` are omitted). -/
def renderRecordFields (g : genericStepOut) : List (List Char) :=
  (if g.Kind = "" then [] else [renderString "kind" ++ ':' :: renderString g.Kind]) ++
    (match g.Value with
     | none => []
     | some v => [renderString "value" ++ ':' :: renderOutValue v])

/-- One serialized record object. -/
def renderRecord (g : genericStepOut) : List Char :=
  '{' :: joinComma (renderRecordFields g) ++ ['}']

/-- The serialized record array.  `Steps.MarshalJSON` always marshals a
non-nil slice (`make(Steps, 0, len(steps))`), so the output is always an
array, `[]` when empty. -/
def renderRecords (gs : List genericStepOut) : List Char :=
  '[' :: joinComma (gs.map renderRecord) ++ [']']

/-- `func (steps Steps) MarshalJSON() ([]byte, error)` (part_000 lines
153-179): build one generic record per step and serialize the record
slice with `json.Marshal`.  The error branch is unreachable (closed
variant set), so the result is the serialized text itself. -/
def Steps.MarshalJSON (steps : Steps) : String :=
  String.mk (renderRecords (marshalRecords steps))

/-- JSON whitespace, as in `encoding/json`'s scanner. -/
def isWs (c : Char) : Bool :=
  c = ' ' ∨ c = '\t' ∨ c = '\n' ∨ c = '\r'

/-- Skip leading JSON whitespace. -/
def skipWs : List Char → List Char
  | [] => []
  | c :: rest => if isWs c then skipWs rest else c :: rest

/-- Hex digit value, upper or lower case, as in `encoding/json`'s
`getu4`. -/
def hexVal (c : Char) : Option Nat :=
  if 48 ≤ c.toNat ∧ c.toNat ≤ 57 then some (c.toNat - 48)
  else if 97 ≤ c.toNat ∧ c.toNat ≤ 102 then some (c.toNat - 87)
  else if 65 ≤ c.toNat ∧ c.toNat ≤ 70 then some (c.toNat - 55)
  else none

/-- Combine a UTF-16 surrogate pair into a code point. -/
def surrPair (n m : Nat) : Nat :=
  0x10000 + (n - 0xD800) * 0x400 + (m - 0xDC00)

/-- Parse the body of a JSON string literal (after the opening quote),
models the string validation of `encoding/json`'s scanner combined with
its `unquote`: short escapes, `\uXXXX` escapes with UTF-16 surrogate-pair
combination (a lone or mismatched surrogate becomes U+FFFD, as in Go),
raw control characters rejected.  The leading fuel argument only makes
the recursion structural; every step consumes at least one input
character, so callers pass the input length plus one and the
fuel-exhausted branch is unreachable. -/
def parseStringBody : Nat → List Char → List Char → Except String (String × List Char)
  | 0, _, _ => .error "string fuel exhausted"
  | _ + 1, _, [] => .error "unexpected end of string literal"
  | fuel + 1, acc, c :: rest =>
    if c = '"' then .ok (String.mk acc, rest)
    else if c = '\\' then
      match rest with
      | [] => .error "unexpected end of escape sequence"
      | e :: rest2 =>
        if e = '"' then parseStringBody fuel (acc ++ ['"']) rest2
        else if e = '\\' then parseStringBody fuel (acc ++ ['\\']) rest2
        else if e = '/' then parseStringBody fuel (acc ++ ['/']) rest2
        else if e = 'b' then parseStringBody fuel (acc ++ [Char.ofNat 8]) rest2
        else if e = 'f' then parseStringBody fuel (acc ++ [Char.ofNat 12]) rest2
        else if e = 'n' then parseStringBody fuel (acc ++ ['\n']) rest2
        else if e = 'r' then parseStringBody fuel (acc ++ ['\r']) rest2
        else if e = 't' then parseStringBody fuel (acc ++ ['\t']) rest2
        else if e = 'u' then
          match rest2 with
          | h1 :: h2 :: h3 :: h4 :: rest3 =>
            match hexVal h1, hexVal h2, hexVal h3, hexVal h4 with
            | some x1, some x2, some x3, some x4 =>
              if 0xD800 ≤ 4096 * x1 + 256 * x2 + 16 * x3 + x4 ∧
                  4096 * x1 + 256 * x2 + 16 * x3 + x4 ≤ 0xDFFF then
                match rest3 with
                | b1 :: b2 :: g1 :: g2 :: g3 :: g4 :: rest4 =>
                  if b1 = '\\' ∧ b2 = 'u' then
                    match hexVal g1, hexVal g2, hexVal g3, hexVal g4 with
                    | some y1, some y2, some y3, some y4 =>
                      if 4096 * x1 + 256 * x2 + 16 * x3 + x4 ≤ 0xDBFF ∧
                          0xDC00 ≤ 4096 * y1 + 256 * y2 + 16 * y3 + y4 then
                        parseStringBody fuel
                          (acc ++ [Char.ofNat (surrPair
                            (4096 * x1 + 256 * x2 + 16 * x3 + x4)
                            (4096 * y1 + 256 * y2 + 16 * y3 + y4))]) rest4
                      else parseStringBody fuel (acc ++ [Char.ofNat 0xFFFD]) rest3
                    | _, _, _, _ => parseStringBody fuel (acc ++ [Char.ofNat 0xFFFD]) rest3
                  else parseStringBody fuel (acc ++ [Char.ofNat 0xFFFD]) rest3
                | _ => parseStringBody fuel (acc ++ [Char.ofNat 0xFFFD]) rest3
              else
                parseStringBody fuel
                  (acc ++ [Char.ofNat (4096 * x1 + 256 * x2 + 16 * x3 + x4)]) rest3
            | _, _, _, _ => .error "invalid unicode escape"
          | _ => .error "invalid unicode escape"
        else .error "invalid escape character"
    else if c.toNat < 32 then .error "control character in string literal"
    else parseStringBody fuel (acc ++ [c]) rest

/-- The longest leading run of decimal digits. -/
def takeDigits : List Char → List Char × List Char
  | [] => ([], [])
  | c :: rest =>
    if isDig c then
      let p := takeDigits rest
      (c :: p.1, p.2)
    else ([], c :: rest)

/-- The integer part of a JSON number: a single `0`, or a nonzero digit
followed by more digits (leading zeros are a syntax error, as in the Go
scanner). -/
def parseIntDigits : List Char → Option (List Char × List Char)
  | [] => none
  | c :: rest =>
    if c = '0' then
      match rest with
      | [] => some (['0'], [])
      | d :: _ => if isDig d then none else some (['0'], rest)
    else if isDig c then
      let p := takeDigits rest
      some (c :: p.1, p.2)
    else none

/-- The optional fraction part of a JSON number (a dot must be followed by
at least one digit). -/
def parseFracPart (cs : List Char) : Option (List Char × List Char) :=
  match cs with
  | c :: rest =>
    if c = '.' then
      match takeDigits rest with
      | ([], _) => none
      | (ds, r) => some ('.' :: ds, r)
    else some ([], c :: rest)
  | [] => some ([], [])

/-- The optional exponent part of a JSON number. -/
def parseExpPart (cs : List Char) : Option (List Char × List Char) :=
  match cs with
  | c :: rest =>
    if c = 'e' ∨ c = 'E' then
      let signed : List Char × List Char :=
        match rest with
        | s :: r => if s = '+' ∨ s = '-' then ([s], r) else ([], s :: r)
        | [] => ([], [])
      match takeDigits signed.2 with
      | ([], _) => none
      | (ds, r) => some (c :: (signed.1 ++ ds), r)
    else some ([], c :: rest)
  | [] => some ([], [])

/-- Lex one JSON number, returning its literal text; this literal is what
`dec.UseNumber()` stores as a `json.Number`. -/
def parseNumberLit (cs : List Char) : Option (List Char × List Char) :=
  let signed : List Char × List Char :=
    match cs with
    | c :: r => if c = '-' then (['-'], r) else ([], c :: r)
    | [] => ([], [])
  match parseIntDigits signed.2 with
  | none => none
  | some (ip, cs2) =>
    match parseFracPart cs2 with
    | none => none
    | some (fp, cs3) =>
      match parseExpPart cs3 with
      | none => none
      | some (ep, cs4) => some (signed.1 ++ ip ++ fp ++ ep, cs4)

mutual

/-- Parse one JSON value (fuel-indexed recursion; the fuel is an upper
bound on nesting and element count, chosen large enough at the top
level).  Models the scanner and generic decoding of `encoding/json` with
`UseNumber`. -/
def parseValue : Nat → List Char → Except String (JValue × List Char)
  | 0, _ => .error "value nesting exhausted"
  | fuel + 1, cs =>
    match skipWs cs with
    | [] => .error "unexpected end of JSON input"
    | c :: rest =>
      if c = '{' then
        match skipWs rest with
        | '}' :: rest2 => .ok (.obj [], rest2)
        | rest2 =>
          match parseObjectItems fuel rest2 with
          | .error e => .error e
          | .ok (fields, rest3) => .ok (.obj fields, rest3)
      else if c = '[' then
        match skipWs rest with
        | ']' :: rest2 => .ok (.arr [], rest2)
        | rest2 =>
          match parseArrayItems fuel rest2 with
          | .error e => .error e
          | .ok (items, rest3) => .ok (.arr items, rest3)
      else if c = '"' then
        match parseStringBody (rest.length + 1) [] rest with
        | .error e => .error e
        | .ok (s, rest2) => .ok (.str s, rest2)
      else if c = 't' then
        match rest with
        | 'r' :: 'u' :: 'e' :: rest2 => .ok (.bool true, rest2)
        | _ => .error "invalid literal"
      else if c = 'f' then
        match rest with
        | 'a' :: 'l' :: 's' :: 'e' :: rest2 => .ok (.bool false, rest2)
        | _ => .error "invalid literal"
      else if c = 'n' then
        match rest with
        | 'u' :: 'l' :: 'l' :: rest2 => .ok (.null, rest2)
        | _ => .error "invalid literal"
      else if c = '-' ∨ isDig c then
        match parseNumberLit (c :: rest) with
        | some (lit, rest2) => .ok (.num (String.mk lit), rest2)
        | none => .error "invalid number literal"
      else .error "invalid character looking for value"

/-- Parse the elements of a non-empty JSON array, positioned at the first
element. -/
def parseArrayItems : Nat → List Char → Except String (List JValue × List Char)
  | 0, _ => .error "value nesting exhausted"
  | fuel + 1, cs =>
    match parseValue fuel cs with
    | .error e => .error e
    | .ok (v, rest) =>
      match skipWs rest with
      | ',' :: rest2 =>
        match parseArrayItems fuel rest2 with
        | .error e => .error e
        | .ok (items, rest3) => .ok (v :: items, rest3)
      | ']' :: rest2 => .ok ([v], rest2)
      | _ => .error "expected comma or closing bracket in array"

/-- Parse the members of a non-empty JSON object, positioned at the first
key. -/
def parseObjectItems : Nat → List Char → Except String (List (String × JValue) × List Char)
  | 0, _ => .error "value nesting exhausted"
  | fuel + 1, cs =>
    match skipWs cs with
    | '"' :: rest =>
      match parseStringBody (rest.length + 1) [] rest with
      | .error e => .error e
      | .ok (key, rest2) =>
        match skipWs rest2 with
        | ':' :: rest3 =>
          match parseValue fuel rest3 with
          | .error e => .error e
          | .ok (v, rest4) =>
            match skipWs rest4 with
            | ',' :: rest5 =>
              match parseObjectItems fuel rest5 with
              | .error e => .error e
              | .ok (fields, rest6) => .ok ((key, v) :: fields, rest6)
            | '}' :: rest5 => .ok ([(key, v)], rest5)
            | _ => .error "expected comma or closing brace in object"
        | _ => .error "expected colon after object key"
    | _ => .error "expected object key"

end

/-- ASCII lower-casing, for the case-insensitive JSON field-name match of
`encoding/json`. -/
def asciiLower (c : Char) : Char :=
  if 65 ≤ c.toNat ∧ c.toNat ≤ 90 then Char.ofNat (c.toNat + 32) else c

/-- Case-insensitive field-name comparison (models the `EqualFold` match
`encoding/json` uses to map object keys to struct fields). -/
def foldCaseEq (a b : String) : Bool :=
  decide (a.data.map asciiLower = b.data.map asciiLower)

/-- Apply one object member to a `genericStep` being decoded, following
`encoding/json` struct decoding: keys matching `kind` (case-insensitive)
must hold a string (JSON `null` is a no-op); keys matching `value` set
the `*any` field (`null` sets the pointer to nil); unknown keys are
ignored; a later duplicate key overwrites an earlier one. -/
def setStructField (g : genericStep) (key : String) (v : JValue) : Except String genericStep :=
  if foldCaseEq key "kind" then
    match v with
    | .null => .ok g
    | .str s => .ok { g with Kind := s }
    | _ => .error "cannot unmarshal value into struct field genericStep.kind of type string"
  else if foldCaseEq key "value" then
    match v with
    | .null => .ok { g with Value := none }
    | _ => .ok { g with Value := some v }
  else .ok g

/-- Fold all members of a record object into a `genericStep`, starting
from the Go zero value. -/
def decodeStructFields (g : genericStep) : List (String × JValue) → Except String genericStep
  | [] => .ok g
  | (key, v) :: rest =>
    match setStructField g key v with
    | .error e => .error e
    | .ok g2 => decodeStructFields g2 rest

/-- Decode one array element into a `genericStep` (a JSON `null` element
leaves the zero value, as in Go). -/
def janyToGenericStep : JValue → Except String genericStep
  | .obj fields => decodeStructFields ⟨"", none⟩ fields
  | .null => .ok ⟨"", none⟩
  | _ => .error "cannot unmarshal value into genericStep"

/-- Decode the elements of the top-level array, surfacing the first
element whose shape does not fit the struct. -/
def janyListToGenSteps : List JValue → Except String (List genericStep)
  | [] => .ok []
  | v :: rest =>
    match janyToGenericStep v with
    | .error e => .error e
    | .ok g =>
      match janyListToGenSteps rest with
      | .error e => .error e
      | .ok gs => .ok (g :: gs)

/-- Convert the parsed top-level value into `[]genericStep`: an array
elementwise, JSON `null` leaves the slice nil (so the record loop sees no
records), anything else is a type error. -/
def janyToGenSteps : JValue → Except String (List genericStep)
  | .null => .ok []
  | .arr items => janyListToGenSteps items
  | _ => .error "cannot unmarshal value into slice of genericStep"

/-- Model of `dec.Decode(&genSteps)` with `dec.UseNumber()`: read one JSON
value from the front of the input (trailing bytes are ignored, as
`json.Decoder.Decode` does) and map it onto the `[]genericStep` slice. -/
def decodeTopLevel (cs : List Char) : Except String (List genericStep) :=
  match parseValue (cs.length + 8) cs with
  | .error e => .error e
  | .ok (v, _) => janyToGenSteps v

/-- `func (steps *Steps) UnmarshalJSON(in []byte) error` (part_000 lines
78-150): decode the generic records, then run the dispatch loop.  The
result `Steps` is assigned to `*steps` only on full success, which the
`Except` return models. -/
def Steps.UnmarshalJSON (input : String) : Except DecodeError Steps :=
  match decodeTopLevel input.data with
  | .error msg => .error (.malformed msg)
  | .ok genSteps => unmarshalLoop genSteps

/-- The signed 64-bit payload bound of Go-constructible index steps (the
Go payloads are `int64` values). -/
def stepInBounds (s : Step) : Bool :=
  match s with
  | Step.ArrayIndexStep i => decide (-(2 ^ 63) ≤ i ∧ i < 2 ^ 63)
  | Step.StringIndexStep i => decide (-(2 ^ 63) ≤ i ∧ i < 2 ^ 63)
  | _ => true

/-- Every step of the sequence is Go-constructible (index payloads fit in
an `int64`). -/
def StepsInBounds (steps : Steps) : Prop :=
  ∀ s ∈ steps, stepInBounds s = true

/-- Model of `jsonpointer.Escape` from go-openapi (a dependency, not part
of this repository): `strings.Replace` of `~` by `~0`, then of `/` by
`~1`. -/
def replaceChar (c : Char) (repl : List Char) : List Char → List Char
  | [] => []
  | x :: rest => (if x = c then repl else [x]) ++ replaceChar c repl rest

/-- `jsonpointer.Escape(token)`. -/
def Escape (s : String) : String :=
  String.mk (replaceChar '/' ['~', '1'] (replaceChar '~' ['~', '0'] s.data))

/-- Model of `strings.Join(elems, sep)`. -/
def stringsJoin (sep : String) : List String → String
  | [] => ""
  | [x] => x
  | x :: y :: rest => x ++ sep ++ stringsJoin sep (y :: rest)

/-- `func buildPointerPath(segments []string) string` (diag.go lines
86-95). -/
def buildPointerPath (segments : List String) : String :=
  if segments.length < 1 then ""
  else "/" ++ stringsJoin "/" (segments.map Escape)

/-- The `pointerType` constants of diag.go. -/
def bodyPointer : String := "body"

/-- The `url` pointer type constant. -/
def urlPointer : String := "url"

/-- The `header` pointer type constant. -/
def headerPointer : String := "header"

/-- `type Pointer struct { Field pointerType; Path string }`. -/
structure Pointer where
  Field : String
  Path : String
deriving DecidableEq

/-- `func NewBodyPointer(segments ...string) Pointer`. -/
def NewBodyPointer (segments : List String) : Pointer :=
  ⟨bodyPointer, buildPointerPath segments⟩

/-- `func NewURLPointer(segments ...string) Pointer`. -/
def NewURLPointer (segments : List String) : Pointer :=
  ⟨urlPointer, buildPointerPath segments⟩

/-- `func NewHeaderPointer(segments ...string) Pointer`. -/
def NewHeaderPointer (segments : List String) : Pointer :=
  ⟨headerPointer, buildPointerPath segments⟩

/-- The JSON-Pointer-style string of a segment list, written from the
spec's words (section 4.4): escape each segment by the standard pointer
escaping rules and join the escaped segments with `/` (in the standard
pointer syntax every segment is preceded by its separator). -/
def rfcPointer : List String → String
  | [] => ""
  | seg :: rest => "/" ++ Escape seg ++ rfcPointer rest

/-- The JSON value the generic decode phase recovers from one serialized
marshal-side record (verification helper relating the two sides of the
stdlib JSON transport). -/
def recordJany (g : genericStepOut) : JValue :=
  .obj ((if g.Kind = "" then [] else [("kind", JValue.str g.Kind)]) ++
    (match g.Value with
     | none => []
     | some (.str s) => [("value", JValue.str s)]
     | some (.int i) => [("value", JValue.num (String.mk (intLit i)))]))

/-- The decode-side generic record corresponding to a marshal-side record
after a marshal/parse round trip of the standard library: strings are
transported unchanged and an `int64` arrives as the `json.Number` holding
its decimal literal. -/
def transportRecord (g : genericStepOut) : genericStep :=
  ⟨g.Kind,
    g.Value.map fun v =>
      match v with
      | .str s => .str s
      | .int i => .num (String.mk (intLit i))⟩

/-- The exact integer denoted by a plain signed decimal literal (an
optional sign followed by digits), with no range restriction; `none` for
any other syntax.  Verification helper used to state exactness of the
`json.Number` to `int64` conversion. -/
def plainIntValue (s : String) : Option Int :=
  match s.data with
  | [] => none
  | c :: rest =>
    let signed : Bool × List Char :=
      if c = '+' then (false, rest)
      else if c = '-' then (true, rest)
      else (false, c :: rest)
    match signed.2 with
    | [] => none
    | d :: ds =>
      match parseDigitsAccum 0 (d :: ds) with
      | none => none
      | some m => some (if signed.1 then -(m : Int) else (m : Int))

/-!  ## Basic character and digit lemmas -/

theorem toNat_ofNat_lt {n : Nat} (h : n < 0xd800) : (Char.ofNat n).toNat = n := by
  rw [Char.ofNat, dif_pos (Or.inl h : n.isValidChar)]
  rfl

theorem toNat_digitChar {n : Nat} (h : n < 10) : (digitChar n).toNat = 48 + n := by
  unfold digitChar
  exact toNat_ofNat_lt (by omega)

theorem char_ne_of_toNat_ne {a b : Char} (h : a.toNat ≠ b.toNat) : a ≠ b :=
  fun e => h (congrArg Char.toNat e)

theorem isDig_digitChar {n : Nat} (h : n < 10) : isDig (digitChar n) = true := by
  simp only [isDig, toNat_digitChar h, decide_eq_true_eq]
  omega

theorem isDig_iff {c : Char} : isDig c = true ↔ 48 ≤ c.toNat ∧ c.toNat ≤ 57 := by
  simp [isDig]

/-!  ## Decimal digit rendering (`natDigits`, `intLit`) -/

theorem natDigitsAux_congr :
    ∀ (n f1 f2 : Nat), n < f1 → n < f2 → natDigitsAux f1 n = natDigitsAux f2 n := by
  intro n
  induction n using Nat.strong_induction_on with
  | _ n ih =>
    intro f1 f2 h1 h2
    match f1, f2 with
    | a + 1, b + 1 =>
      simp only [natDigitsAux]
      by_cases hn : n < 10
      · simp [hn]
      · simp only [hn, if_false]
        have hd : n / 10 < n := Nat.div_lt_self (by omega) (by omega)
        rw [ih (n / 10) hd a b (by omega) (by omega)]

theorem natDigits_eq (n : Nat) :
    natDigits n = if n < 10 then [digitChar n]
      else natDigits (n / 10) ++ [digitChar (n % 10)] := by
  by_cases hn : n < 10
  · simp [natDigits, natDigitsAux, hn]
  · have hd : n / 10 < n := Nat.div_lt_self (by omega) (by omega)
    simp only [hn, if_false]
    show natDigitsAux (n + 1) n = natDigits (n / 10) ++ [digitChar (n % 10)]
    conv_lhs => rw [natDigitsAux]
    simp only [hn, if_false]
    unfold natDigits
    rw [natDigitsAux_congr (n / 10) n (n / 10 + 1) (by omega) (by omega)]

theorem natDigits_shape (n : Nat) :
    ∃ d r, d < 10 ∧ (n = 0 ∨ 1 ≤ d) ∧ natDigits n = digitChar d :: r ∧
      (∀ c ∈ r, isDig c = true) := by
  induction n using Nat.strong_induction_on with
  | _ n ih =>
    rw [natDigits_eq]
    by_cases hn : n < 10
    · exact ⟨n, [], hn, by omega, by simp [hn], by simp⟩
    · have hd : n / 10 < n := Nat.div_lt_self (by omega) (by omega)
      obtain ⟨d, r, hd10, hpos, hrep, hall⟩ := ih (n / 10) hd
      have hd1 : 1 ≤ d := by
        rcases hpos with h | h
        · exact absurd h (by omega)
        · exact h
      refine ⟨d, r ++ [digitChar (n % 10)], hd10, by omega, by simp [hn, hrep], ?_⟩
      intro c hc
      rcases List.mem_append.mp hc with h | h
      · exact hall c h
      · rcases List.mem_singleton.mp h with rfl
        exact isDig_digitChar (Nat.mod_lt _ (by omega))

theorem natDigits_all_dig (n : Nat) : ∀ c ∈ natDigits n, isDig c = true := by
  obtain ⟨d, r, hd10, hpos, hrep, hall⟩ := natDigits_shape n
  intro c hc
  rw [hrep] at hc
  rcases List.mem_cons.mp hc with rfl | h
  · exact isDig_digitChar hd10
  · exact hall c h

theorem natDigits_head_pos {n : Nat} (h : 10 ≤ n) :
    ∃ d r, 1 ≤ d ∧ d < 10 ∧ natDigits n = digitChar d :: r := by
  induction n using Nat.strong_induction_on with
  | _ n ih =>
    rw [natDigits_eq]
    have hn : ¬ n < 10 := by omega
    simp only [hn, if_false]
    have hd : n / 10 < n := Nat.div_lt_self (by omega) (by omega)
    by_cases h10 : 10 ≤ n / 10
    · obtain ⟨d, r, h1, h2, h3⟩ := ih (n / 10) hd h10
      exact ⟨d, r ++ [digitChar (n % 10)], h1, h2, by simp [h3]⟩
    · have h1 : 1 ≤ n / 10 := Nat.le_div_iff_mul_le (by omega) |>.mpr (by omega)
      rw [natDigits_eq]
      simp only [show n / 10 < 10 by omega, if_true]
      exact ⟨n / 10, [digitChar (n % 10)], h1, by omega, rfl⟩

theorem parseDigitsAccum_append (l1 l2 : List Char) :
    ∀ acc, parseDigitsAccum acc (l1 ++ l2) =
      (parseDigitsAccum acc l1).bind (fun m => parseDigitsAccum m l2) := by
  induction l1 with
  | nil => intro acc; simp [parseDigitsAccum]
  | cons c rest ih =>
    intro acc
    simp only [List.cons_append, parseDigitsAccum]
    by_cases hc : isDig c = true
    · simp [hc, ih]
    · simp [hc]

theorem parseDigitsAccum_natDigits (n : Nat) :
    ∀ acc, parseDigitsAccum acc (natDigits n) =
      some (acc * 10 ^ (natDigits n).length + n) := by
  induction n using Nat.strong_induction_on with
  | _ n ih =>
    intro acc
    rw [natDigits_eq]
    by_cases hn : n < 10
    · simp only [hn, if_true, parseDigitsAccum, isDig_digitChar hn, if_true,
        toNat_digitChar hn, List.length_singleton]
      congr 1
      omega
    · have hd : n / 10 < n := Nat.div_lt_self (by omega) (by omega)
      simp only [hn, if_false, parseDigitsAccum_append]
      rw [ih (n / 10) hd acc]
      have hm : n % 10 < 10 := Nat.mod_lt _ (by omega)
      simp only [Option.some_bind, parseDigitsAccum, isDig_digitChar hm, if_true,
        toNat_digitChar hm, List.length_append, List.length_singleton]
      congr 1
      have h1 : (48 : Nat) + n % 10 - 48 = n % 10 := by omega
      rw [h1, pow_succ]
      calc (acc * 10 ^ (natDigits (n / 10)).length + n / 10) * 10 + n % 10
          = acc * (10 ^ (natDigits (n / 10)).length * 10) + (10 * (n / 10) + n % 10) := by
            ring
        _ = acc * (10 ^ (natDigits (n / 10)).length * 10) + n := by
            rw [Nat.div_add_mod]

/-!  ## `strconv.ParseInt` lemmas -/

theorem digitChar_ne {n : Nat} (hn : n < 10) (c : Char)
    (hc : c.toNat < 48 ∨ 57 < c.toNat) : digitChar n ≠ c :=
  char_ne_of_toNat_ne (by rw [toNat_digitChar hn]; omega)

theorem ParseInt64_cons (c : Char) (rest : List Char) :
    ParseInt64 (String.mk (c :: rest)) =
      (let signed : Bool × List Char :=
        if c = '+' then (false, rest)
        else if c = '-' then (true, rest)
        else (false, c :: rest)
      match signed.2 with
      | [] => .error .errSyn
      | d :: ds =>
        match parseDigitsAccum 0 (d :: ds) with
        | none => .error .errSyn
        | some n =>
          if signed.1 then
            if n > 2 ^ 63 then .error .errRange else .ok (-(n : Int))
          else
            if n ≥ 2 ^ 63 then .error .errRange else .ok (n : Int)) := rfl

theorem parseDigitsAccum_natDigits_zero (n : Nat) :
    parseDigitsAccum 0 (natDigits n) = some n := by
  rw [parseDigitsAccum_natDigits]
  simp

theorem intLit_nonneg {i : Int} (h : 0 ≤ i) : intLit i = natDigits i.toNat := by
  simp [intLit, show ¬ i < 0 by omega]

theorem intLit_neg {i : Int} (h : i < 0) : intLit i = '-' :: natDigits (-i).toNat := by
  simp [intLit, h]

theorem ParseInt64_plus_nil : ParseInt64 (String.mk ['+']) = .error .errSyn := rfl

theorem ParseInt64_minus_nil : ParseInt64 (String.mk ['-']) = .error .errSyn := rfl

theorem plainIntValue_plus_nil : plainIntValue (String.mk ['+']) = none := rfl

theorem plainIntValue_minus_nil : plainIntValue (String.mk ['-']) = none := rfl

theorem ParseInt64_plus (d : Char) (ds : List Char) :
    ParseInt64 (String.mk ('+' :: d :: ds)) =
      (match parseDigitsAccum 0 (d :: ds) with
      | none => .error .errSyn
      | some n => if n ≥ 2 ^ 63 then .error .errRange else .ok (n : Int)) := rfl

theorem ParseInt64_minus (d : Char) (ds : List Char) :
    ParseInt64 (String.mk ('-' :: d :: ds)) =
      (match parseDigitsAccum 0 (d :: ds) with
      | none => .error .errSyn
      | some n => if n > 2 ^ 63 then .error .errRange else .ok (-(n : Int))) := rfl

theorem plainIntValue_cons (c : Char) (rest : List Char) :
    plainIntValue (String.mk (c :: rest)) =
      (let signed : Bool × List Char :=
        if c = '+' then (false, rest)
        else if c = '-' then (true, rest)
        else (false, c :: rest)
      match signed.2 with
      | [] => none
      | d :: ds =>
        match parseDigitsAccum 0 (d :: ds) with
        | none => none
        | some m => some (if signed.1 then -(m : Int) else (m : Int))) := rfl

theorem plainIntValue_plus (d : Char) (ds : List Char) :
    plainIntValue (String.mk ('+' :: d :: ds)) =
      (match parseDigitsAccum 0 (d :: ds) with
      | none => none
      | some m => some ((m : Int))) := rfl

theorem plainIntValue_minus (d : Char) (ds : List Char) :
    plainIntValue (String.mk ('-' :: d :: ds)) =
      (match parseDigitsAccum 0 (d :: ds) with
      | none => none
      | some m => some (-(m : Int))) := rfl

theorem ParseInt64_plus_none (d : Char) (ds : List Char)
    (h : parseDigitsAccum 0 (d :: ds) = none) :
    ParseInt64 (String.mk ('+' :: d :: ds)) = .error .errSyn := by
  rw [ParseInt64_plus, h]

theorem ParseInt64_plus_some (d : Char) (ds : List Char) (n : Nat)
    (h : parseDigitsAccum 0 (d :: ds) = some n) :
    ParseInt64 (String.mk ('+' :: d :: ds)) =
      (if n ≥ 2 ^ 63 then .error .errRange else .ok (n : Int)) := by
  rw [ParseInt64_plus, h]

theorem ParseInt64_minus_none (d : Char) (ds : List Char)
    (h : parseDigitsAccum 0 (d :: ds) = none) :
    ParseInt64 (String.mk ('-' :: d :: ds)) = .error .errSyn := by
  rw [ParseInt64_minus, h]

theorem ParseInt64_minus_some (d : Char) (ds : List Char) (n : Nat)
    (h : parseDigitsAccum 0 (d :: ds) = some n) :
    ParseInt64 (String.mk ('-' :: d :: ds)) =
      (if n > 2 ^ 63 then .error .errRange else .ok (-(n : Int))) := by
  rw [ParseInt64_minus, h]

theorem ParseInt64_nosign_none (c : Char) (rest : List Char)
    (hplus : c ≠ '+') (hminus : c ≠ '-')
    (h : parseDigitsAccum 0 (c :: rest) = none) :
    ParseInt64 (String.mk (c :: rest)) = .error .errSyn := by
  rw [ParseInt64_cons]
  simp only [if_neg hplus, if_neg hminus, h]

theorem ParseInt64_nosign_some (c : Char) (rest : List Char) (n : Nat)
    (hplus : c ≠ '+') (hminus : c ≠ '-')
    (h : parseDigitsAccum 0 (c :: rest) = some n) :
    ParseInt64 (String.mk (c :: rest)) =
      (if n ≥ 2 ^ 63 then .error .errRange else .ok (n : Int)) := by
  rw [ParseInt64_cons]
  simp only [if_neg hplus, if_neg hminus, h]
  rfl

theorem plainIntValue_plus_none (d : Char) (ds : List Char)
    (h : parseDigitsAccum 0 (d :: ds) = none) :
    plainIntValue (String.mk ('+' :: d :: ds)) = none := by
  rw [plainIntValue_plus, h]

theorem plainIntValue_plus_some (d : Char) (ds : List Char) (n : Nat)
    (h : parseDigitsAccum 0 (d :: ds) = some n) :
    plainIntValue (String.mk ('+' :: d :: ds)) = some ((n : Int)) := by
  rw [plainIntValue_plus, h]

theorem plainIntValue_minus_none (d : Char) (ds : List Char)
    (h : parseDigitsAccum 0 (d :: ds) = none) :
    plainIntValue (String.mk ('-' :: d :: ds)) = none := by
  rw [plainIntValue_minus, h]

theorem plainIntValue_minus_some (d : Char) (ds : List Char) (n : Nat)
    (h : parseDigitsAccum 0 (d :: ds) = some n) :
    plainIntValue (String.mk ('-' :: d :: ds)) = some (-(n : Int)) := by
  rw [plainIntValue_minus, h]

theorem plainIntValue_nosign_none (c : Char) (rest : List Char)
    (hplus : c ≠ '+') (hminus : c ≠ '-')
    (h : parseDigitsAccum 0 (c :: rest) = none) :
    plainIntValue (String.mk (c :: rest)) = none := by
  rw [plainIntValue_cons]
  simp only [if_neg hplus, if_neg hminus, h]

theorem plainIntValue_nosign_some (c : Char) (rest : List Char) (n : Nat)
    (hplus : c ≠ '+') (hminus : c ≠ '-')
    (h : parseDigitsAccum 0 (c :: rest) = some n) :
    plainIntValue (String.mk (c :: rest)) = some ((n : Int)) := by
  rw [plainIntValue_cons]
  simp only [if_neg hplus, if_neg hminus, h]
  rfl

theorem ParseInt64_intLit (i : Int) (h1 : -(2 ^ 63) ≤ i) (h2 : i < 2 ^ 63) :
    ParseInt64 (String.mk (intLit i)) = .ok i := by
  by_cases hneg : i < 0
  · obtain ⟨d, r, hd10, hpos, hrep, hall⟩ := natDigits_shape (-i).toNat
    have hacc : parseDigitsAccum 0 (digitChar d :: r) = some (-i).toNat := by
      rw [← hrep]
      exact parseDigitsAccum_natDigits_zero _
    rw [intLit_neg hneg, hrep, ParseInt64_minus_some _ _ _ hacc]
    simp only [show ¬ (-i).toNat > 2 ^ 63 by omega, if_false]
    congr 1
    omega
  · obtain ⟨d, r, hd10, hpos, hrep, hall⟩ := natDigits_shape i.toNat
    have hplus : digitChar d ≠ '+' := digitChar_ne hd10 '+' (by decide)
    have hminus : digitChar d ≠ '-' := digitChar_ne hd10 '-' (by decide)
    have hacc : parseDigitsAccum 0 (digitChar d :: r) = some i.toNat := by
      rw [← hrep]
      exact parseDigitsAccum_natDigits_zero _
    rw [intLit_nonneg (by omega), hrep, ParseInt64_nosign_some _ _ _ hplus hminus hacc]
    simp only [show ¬ i.toNat ≥ 2 ^ 63 by omega, if_false]
    congr 1
    omega

theorem ParseInt64_plain (s : String) (i : Int) :
    ParseInt64 s = .ok i ↔ plainIntValue s = some i ∧ -(2 ^ 63) ≤ i ∧ i < 2 ^ 63 := by
  obtain ⟨l⟩ := s
  rcases l with _ | ⟨c, rest⟩
  · simp [ParseInt64, plainIntValue]
  · by_cases hp : c = '+'
    · subst hp
      rcases rest with _ | ⟨d, ds⟩
      · rw [ParseInt64_plus_nil, plainIntValue_plus_nil]
        simp
      · rcases hacc : parseDigitsAccum 0 (d :: ds) with _ | n
        · rw [ParseInt64_plus_none _ _ hacc, plainIntValue_plus_none _ _ hacc]
          simp
        · rw [ParseInt64_plus_some _ _ _ hacc, plainIntValue_plus_some _ _ _ hacc]
          by_cases hr : n ≥ 2 ^ 63
          · simp only [if_pos hr]
            constructor
            · intro h
              exact absurd h (by simp)
            · rintro ⟨h1, h2, h3⟩
              injection h1 with h1
              omega
          · simp only [if_neg hr]
            constructor
            · intro h
              injection h with h
              exact ⟨by rw [h], by omega, by omega⟩
            · rintro ⟨h1, h2, h3⟩
              injection h1 with h1
              rw [h1]
    · by_cases hm : c = '-'
      · subst hm
        rcases rest with _ | ⟨d, ds⟩
        · rw [ParseInt64_minus_nil, plainIntValue_minus_nil]
          simp
        · rcases hacc : parseDigitsAccum 0 (d :: ds) with _ | n
          · rw [ParseInt64_minus_none _ _ hacc, plainIntValue_minus_none _ _ hacc]
            simp
          · rw [ParseInt64_minus_some _ _ _ hacc, plainIntValue_minus_some _ _ _ hacc]
            by_cases hr : n > 2 ^ 63
            · simp only [if_pos hr]
              constructor
              · intro h
                exact absurd h (by simp)
              · rintro ⟨h1, h2, h3⟩
                injection h1 with h1
                omega
            · simp only [if_neg hr]
              constructor
              · intro h
                injection h with h
                exact ⟨by rw [h], by omega, by omega⟩
              · rintro ⟨h1, h2, h3⟩
                injection h1 with h1
                rw [h1]
      · rcases hacc : parseDigitsAccum 0 (c :: rest) with _ | n
        · rw [ParseInt64_nosign_none _ _ hp hm hacc, plainIntValue_nosign_none _ _ hp hm hacc]
          simp
        · rw [ParseInt64_nosign_some _ _ _ hp hm hacc, plainIntValue_nosign_some _ _ _ hp hm hacc]
          by_cases hr : n ≥ 2 ^ 63
          · simp only [if_pos hr]
            constructor
            · intro h
              exact absurd h (by simp)
            · rintro ⟨h1, h2, h3⟩
              injection h1 with h1
              omega
          · simp only [if_neg hr]
            constructor
            · intro h
              injection h with h
              exact ⟨by rw [h], by omega, by omega⟩
            · rintro ⟨h1, h2, h3⟩
              injection h1 with h1
              rw [h1]

theorem ParseInt64_range (s : String) (n : Int) (h : plainIntValue s = some n)
    (hout : n < -(2 ^ 63) ∨ 2 ^ 63 ≤ n) : ParseInt64 s = .error .errRange := by
  obtain ⟨l⟩ := s
  rcases l with _ | ⟨c, rest⟩
  · simp [plainIntValue] at h
  · by_cases hp : c = '+'
    · subst hp
      rcases rest with _ | ⟨d, ds⟩
      · rw [plainIntValue_plus_nil] at h
        cases h
      · rcases hacc : parseDigitsAccum 0 (d :: ds) with _ | m
        · rw [plainIntValue_plus_none _ _ hacc] at h
          cases h
        · rw [plainIntValue_plus_some _ _ _ hacc] at h
          injection h with h
          rw [ParseInt64_plus_some _ _ _ hacc]
          simp only [show m ≥ 2 ^ 63 by omega, if_pos]
    · by_cases hm : c = '-'
      · subst hm
        rcases rest with _ | ⟨d, ds⟩
        · rw [plainIntValue_minus_nil] at h
          cases h
        · rcases hacc : parseDigitsAccum 0 (d :: ds) with _ | m
          · rw [plainIntValue_minus_none _ _ hacc] at h
            cases h
          · rw [plainIntValue_minus_some _ _ _ hacc] at h
            injection h with h
            rw [ParseInt64_minus_some _ _ _ hacc]
            simp only [show m > 2 ^ 63 by omega, if_pos]
      · rcases hacc : parseDigitsAccum 0 (c :: rest) with _ | m
        · rw [plainIntValue_nosign_none _ _ hp hm hacc] at h
          cases h
        · rw [plainIntValue_nosign_some _ _ _ hp hm hacc] at h
          injection h with h
          rw [ParseInt64_nosign_some _ _ _ hp hm hacc]
          simp only [show m ≥ 2 ^ 63 by omega, if_pos]

theorem parseDigitsAccum_none_of_mem {l : List Char} {c0 : Char} (hc : c0 ∈ l)
    (hnd : isDig c0 = false) : ∀ acc, parseDigitsAccum acc l = none := by
  induction l with
  | nil => cases hc
  | cons c rest ih =>
    intro acc
    rcases List.mem_cons.mp hc with rfl | hmem
    · simp [parseDigitsAccum, hnd]
    · by_cases hd : isDig c = true
      · simp [parseDigitsAccum, hd, ih hmem]
      · simp [parseDigitsAccum, hd]

theorem ParseInt64_dot (s : String) (h : '.' ∈ s.data) : ParseInt64 s = .error .errSyn := by
  obtain ⟨l⟩ := s
  rcases l with _ | ⟨c, rest⟩
  · simp [ParseInt64]
  · have hdot : isDig '.' = false := by decide
    by_cases hp : c = '+'
    · subst hp
      rcases List.mem_cons.mp h with habs | hmem
      · exact absurd habs.symm (by decide)
      · rcases rest with _ | ⟨d, ds⟩
        · cases hmem
        · exact ParseInt64_plus_none _ _ (parseDigitsAccum_none_of_mem hmem hdot 0)
    · by_cases hm : c = '-'
      · subst hm
        rcases List.mem_cons.mp h with habs | hmem
        · exact absurd habs.symm (by decide)
        · rcases rest with _ | ⟨d, ds⟩
          · cases hmem
          · exact ParseInt64_minus_none _ _ (parseDigitsAccum_none_of_mem hmem hdot 0)
      · exact ParseInt64_nosign_none c rest hp hm (parseDigitsAccum_none_of_mem h hdot 0)

/-!  ## String escaping round trip -/

theorem toNat_hexDigitChar {n : Nat} (h : n < 16) :
    (hexDigitChar n).toNat = if n < 10 then 48 + n else 87 + n := by
  unfold hexDigitChar
  by_cases h10 : n < 10
  · rw [if_pos h10, if_pos h10, toNat_ofNat_lt (by omega)]
  · rw [if_neg h10, if_neg h10, toNat_ofNat_lt (by omega)]

theorem hexVal_hexDigitChar {n : Nat} (h : n < 16) : hexVal (hexDigitChar n) = some n := by
  unfold hexVal
  rw [toNat_hexDigitChar h]
  by_cases h10 : n < 10
  · simp only [if_pos h10]
    split_ifs <;> first | (congr 1; omega) | (exfalso; omega)
  · simp only [if_neg h10]
    split_ifs <;> first | (congr 1; omega) | (exfalso; omega)

theorem escapeChar_length_pos (c : Char) : 1 ≤ (escapeChar c).length := by
  unfold escapeChar
  split_ifs <;> simp [uEscape]

theorem psb_quote (f : Nat) (acc r : List Char) :
    parseStringBody (f + 1) acc ('\\' :: '"' :: r) =
      parseStringBody f (acc ++ ['"']) r := rfl

theorem psb_backslash (f : Nat) (acc r : List Char) :
    parseStringBody (f + 1) acc ('\\' :: '\\' :: r) =
      parseStringBody f (acc ++ ['\\']) r := rfl

theorem psb_newline (f : Nat) (acc r : List Char) :
    parseStringBody (f + 1) acc ('\\' :: 'n' :: r) =
      parseStringBody f (acc ++ ['\n']) r := rfl

theorem psb_creturn (f : Nat) (acc r : List Char) :
    parseStringBody (f + 1) acc ('\\' :: 'r' :: r) =
      parseStringBody f (acc ++ ['\r']) r := rfl

theorem psb_tab (f : Nat) (acc r : List Char) :
    parseStringBody (f + 1) acc ('\\' :: 't' :: r) =
      parseStringBody f (acc ++ ['\t']) r := rfl

theorem psb_raw (f : Nat) (acc r : List Char) (c : Char)
    (h1 : c ≠ '"') (h2 : c ≠ '\\') (h3 : ¬ c.toNat < 32) :
    parseStringBody (f + 1) acc (c :: r) = parseStringBody f (acc ++ [c]) r := by
  simp only [parseStringBody, if_neg h1, if_neg h2, if_neg h3]

theorem psb_u_unfold (f : Nat) (acc : List Char) (a b c' d : Char) (rest2 : List Char) :
    parseStringBody (f + 1) acc ('\\' :: 'u' :: a :: b :: c' :: d :: rest2) =
      (match hexVal a, hexVal b, hexVal c', hexVal d with
      | some x1, some x2, some x3, some x4 =>
        if 0xD800 ≤ 4096 * x1 + 256 * x2 + 16 * x3 + x4 ∧
            4096 * x1 + 256 * x2 + 16 * x3 + x4 ≤ 0xDFFF then
          (match rest2 with
          | b1 :: b2 :: g1 :: g2 :: g3 :: g4 :: rest4 =>
            if b1 = '\\' ∧ b2 = 'u' then
              match hexVal g1, hexVal g2, hexVal g3, hexVal g4 with
              | some y1, some y2, some y3, some y4 =>
                if 4096 * x1 + 256 * x2 + 16 * x3 + x4 ≤ 0xDBFF ∧
                    0xDC00 ≤ 4096 * y1 + 256 * y2 + 16 * y3 + y4 then
                  parseStringBody f
                    (acc ++ [Char.ofNat (surrPair
                      (4096 * x1 + 256 * x2 + 16 * x3 + x4)
                      (4096 * y1 + 256 * y2 + 16 * y3 + y4))]) rest4
                else parseStringBody f (acc ++ [Char.ofNat 0xFFFD]) rest2
              | _, _, _, _ => parseStringBody f (acc ++ [Char.ofNat 0xFFFD]) rest2
            else parseStringBody f (acc ++ [Char.ofNat 0xFFFD]) rest2
          | _ => parseStringBody f (acc ++ [Char.ofNat 0xFFFD]) rest2)
        else
          parseStringBody f
            (acc ++ [Char.ofNat (4096 * x1 + 256 * x2 + 16 * x3 + x4)]) rest2
      | _, _, _, _ => .error "invalid unicode escape") := rfl

theorem parseStringBody_uEscape (f : Nat) (acc rest2 : List Char) (c : Char)
    (hlt : c.toNat < 0xD800) :
    parseStringBody (f + 1) acc (uEscape c ++ rest2) =
      parseStringBody f (acc ++ [c]) rest2 := by
  have e1 : hexVal (hexDigitChar (c.toNat / 4096 % 16)) = some (c.toNat / 4096 % 16) :=
    hexVal_hexDigitChar (Nat.mod_lt _ (by omega))
  have e2 : hexVal (hexDigitChar (c.toNat / 256 % 16)) = some (c.toNat / 256 % 16) :=
    hexVal_hexDigitChar (Nat.mod_lt _ (by omega))
  have e3 : hexVal (hexDigitChar (c.toNat / 16 % 16)) = some (c.toNat / 16 % 16) :=
    hexVal_hexDigitChar (Nat.mod_lt _ (by omega))
  have e4 : hexVal (hexDigitChar (c.toNat % 16)) = some (c.toNat % 16) :=
    hexVal_hexDigitChar (Nat.mod_lt _ (by omega))
  have hn : 4096 * (c.toNat / 4096 % 16) + 256 * (c.toNat / 256 % 16) +
      16 * (c.toNat / 16 % 16) + c.toNat % 16 = c.toNat := by
    omega
  show parseStringBody (f + 1) acc
      ('\\' :: 'u' :: hexDigitChar (c.toNat / 4096 % 16) :: hexDigitChar (c.toNat / 256 % 16)
        :: hexDigitChar (c.toNat / 16 % 16) :: hexDigitChar (c.toNat % 16) :: rest2) =
    parseStringBody f (acc ++ [c]) rest2
  rw [psb_u_unfold]
  simp only [e1, e2, e3, e4, hn]
  rw [if_neg (by omega : ¬ (0xD800 ≤ c.toNat ∧ c.toNat ≤ 0xDFFF))]
  rw [Char.ofNat_toNat]

theorem parseStringBody_escape :
    ∀ (l : List Char) (fuel : Nat) (acc rest : List Char),
      (escapeChars l).length < fuel →
      parseStringBody fuel acc (escapeChars l ++ '"' :: rest) =
        .ok (String.mk (acc ++ l), rest) := by
  intro l
  induction l with
  | nil =>
    intro fuel acc rest hf
    rcases fuel with _ | f
    · exact absurd hf (by simp)
    · simp [escapeChars, parseStringBody]
  | cons c l ih =>
    intro fuel acc rest hf
    rcases fuel with _ | f
    · exact absurd hf (by omega)
    have hcl : (escapeChars (c :: l)).length =
        (escapeChar c).length + (escapeChars l).length := by
      simp [escapeChars]
    have hlen : (escapeChars l).length < f := by
      have := escapeChar_length_pos c
      omega
    show parseStringBody (f + 1) acc ((escapeChar c ++ escapeChars l) ++ '"' :: rest) = _
    rw [List.append_assoc]
    by_cases h1 : c = '"'
    · subst h1
      rw [show escapeChar '"' = ['\\', '"'] from rfl]
      simp only [List.cons_append, List.nil_append]
      rw [psb_quote, ih f _ _ hlen]
      simp
    · by_cases h2 : c = '\\'
      · subst h2
        rw [show escapeChar '\\' = ['\\', '\\'] from rfl]
        simp only [List.cons_append, List.nil_append]
        rw [psb_backslash, ih f _ _ hlen]
        simp
      · by_cases h3 : c = '\n'
        · subst h3
          rw [show escapeChar '\n' = ['\\', 'n'] from rfl]
          simp only [List.cons_append, List.nil_append]
          rw [psb_newline, ih f _ _ hlen]
          simp
        · by_cases h4 : c = '\r'
          · subst h4
            rw [show escapeChar '\r' = ['\\', 'r'] from rfl]
            simp only [List.cons_append, List.nil_append]
            rw [psb_creturn, ih f _ _ hlen]
            simp
          · by_cases h5 : c = '\t'
            · subst h5
              rw [show escapeChar '\t' = ['\\', 't'] from rfl]
              simp only [List.cons_append, List.nil_append]
              rw [psb_tab, ih f _ _ hlen]
              simp
            · by_cases h6 : c = '<' ∨ c = '>' ∨ c = '&'
              · rw [show escapeChar c = uEscape c by
                  unfold escapeChar
                  rw [if_neg h1, if_neg h2, if_neg h3, if_neg h4, if_neg h5,
                    if_pos h6]]
                rw [parseStringBody_uEscape f acc _ c (by
                  rcases h6 with rfl | rfl | rfl <;> decide)]
                rw [ih f _ _ hlen]
                simp
              · by_cases h7 : c.toNat < 32
                · rw [show escapeChar c = uEscape c by
                    unfold escapeChar
                    rw [if_neg h1, if_neg h2, if_neg h3, if_neg h4, if_neg h5,
                      if_neg h6, if_pos h7]]
                  rw [parseStringBody_uEscape f acc _ c (by omega)]
                  rw [ih f _ _ hlen]
                  simp
                · by_cases h8 : c.toNat = 0x2028 ∨ c.toNat = 0x2029
                  · rw [show escapeChar c = uEscape c by
                      unfold escapeChar
                      rw [if_neg h1, if_neg h2, if_neg h3, if_neg h4, if_neg h5,
                        if_neg h6, if_neg h7, if_pos h8]]
                    rw [parseStringBody_uEscape f acc _ c (by omega)]
                    rw [ih f _ _ hlen]
                    simp
                  · rw [show escapeChar c = [c] by
                      unfold escapeChar
                      rw [if_neg h1, if_neg h2, if_neg h3, if_neg h4, if_neg h5,
                        if_neg h6, if_neg h7, if_neg h8]]
                    simp only [List.singleton_append]
                    rw [psb_raw f _ _ c h1 h2 (by omega)]
                    rw [ih f _ _ hlen]
                    simp

theorem parseStringBody_renderString (f : Nat) (s : String) (rest : List Char)
    (hf : (escapeChars s.data).length < f) :
    parseStringBody f [] (escapeChars s.data ++ '"' :: rest) = .ok (s, rest) := by
  rw [parseStringBody_escape s.data f [] rest hf]
  rfl

/-!  ## Number lexing round trip -/

theorem takeDigits_all (l : List Char) (hall : ∀ c ∈ l, isDig c = true)
    (b : Char) (t : List Char) (hb : isDig b = false) :
    takeDigits (l ++ b :: t) = (l, b :: t) := by
  induction l with
  | nil => simp [takeDigits, hb]
  | cons c cs ih =>
    have hc : isDig c = true := hall c (List.mem_cons_self _ _)
    have hcs : ∀ x ∈ cs, isDig x = true := fun x hx => hall x (List.mem_cons_of_mem _ hx)
    simp [takeDigits, hc, ih hcs]

theorem parseIntDigits_natDigits (n : Nat) (b : Char) (t : List Char)
    (hb : isDig b = false) :
    parseIntDigits (natDigits n ++ b :: t) = some (natDigits n, b :: t) := by
  by_cases h0 : n = 0
  · subst h0
    rw [show natDigits 0 = ['0'] from by decide]
    simp [parseIntDigits, takeDigits, hb]
  · obtain ⟨d, r, hd10, hpos, hrep, hall⟩ := natDigits_shape n
    have hd1 : 1 ≤ d := by
      rcases hpos with h | h
      · exact absurd h h0
      · exact h
    have hne : digitChar d ≠ '0' := char_ne_of_toNat_ne (by
      rw [toNat_digitChar hd10]
      simp only [show ('0').toNat = 48 from rfl]
      omega)
    rw [hrep, List.cons_append]
    simp only [parseIntDigits, if_neg hne, isDig_digitChar hd10, if_true]
    rw [takeDigits_all r hall b t hb]

theorem parseNumberLit_cons (c : Char) (r : List Char) :
    parseNumberLit (c :: r) =
      (let signed : List Char × List Char :=
        if c = '-' then (['-'], r) else ([], c :: r)
      match parseIntDigits signed.2 with
      | none => none
      | some (ip, cs2) =>
        match parseFracPart cs2 with
        | none => none
        | some (fp, cs3) =>
          match parseExpPart cs3 with
          | none => none
          | some (ep, cs4) => some (signed.1 ++ ip ++ fp ++ ep, cs4)) := rfl

theorem parseNumberLit_minus (r : List Char) :
    parseNumberLit ('-' :: r) =
      (match parseIntDigits r with
      | none => none
      | some (ip, cs2) =>
        match parseFracPart cs2 with
        | none => none
        | some (fp, cs3) =>
          match parseExpPart cs3 with
          | none => none
          | some (ep, cs4) => some ('-' :: (ip ++ fp ++ ep), cs4)) := rfl

theorem parseNumberLit_nosign (c : Char) (r : List Char) (hm : c ≠ '-') :
    parseNumberLit (c :: r) =
      (match parseIntDigits (c :: r) with
      | none => none
      | some (ip, cs2) =>
        match parseFracPart cs2 with
        | none => none
        | some (fp, cs3) =>
          match parseExpPart cs3 with
          | none => none
          | some (ep, cs4) => some (ip ++ fp ++ ep, cs4)) := by
  rw [parseNumberLit_cons]
  simp only [if_neg hm]
  rfl

theorem parseFracPart_nodot (b : Char) (t : List Char) (hbd : b ≠ '.') :
    parseFracPart (b :: t) = some ([], b :: t) := by
  simp only [parseFracPart, if_neg hbd]

theorem parseExpPart_noexp (b : Char) (t : List Char) (hbe : ¬ (b = 'e' ∨ b = 'E')) :
    parseExpPart (b :: t) = some ([], b :: t) := by
  simp only [parseExpPart, if_neg hbe]

theorem parseNumberLit_intLit (i : Int) (b : Char) (t : List Char)
    (hb : isDig b = false) (hbd : b ≠ '.') (hbe : ¬ (b = 'e' ∨ b = 'E')) :
    parseNumberLit (intLit i ++ b :: t) = some (intLit i, b :: t) := by
  by_cases hneg : i < 0
  · rw [intLit_neg hneg, List.cons_append, parseNumberLit_minus]
    simp only [parseIntDigits_natDigits _ b t hb, parseFracPart_nodot b t hbd,
      parseExpPart_noexp b t hbe]
    simp
  · rw [intLit_nonneg (by omega)]
    obtain ⟨d, r, hd10, hpos, hrep, hall⟩ := natDigits_shape i.toNat
    have hm : digitChar d ≠ '-' := digitChar_ne hd10 '-' (by decide)
    rw [hrep, List.cons_append, parseNumberLit_nosign _ _ hm, ← List.cons_append, ← hrep]
    simp only [parseIntDigits_natDigits _ b t hb, parseFracPart_nodot b t hbd,
      parseExpPart_noexp b t hbe]
    simp

/-!  ## Parser unfolding lemmas -/

theorem isWs_eq_false {c : Char} (h : ¬ (c = ' ' ∨ c = '\t' ∨ c = '\n' ∨ c = '\r')) :
    isWs c = false := by
  simp only [isWs, decide_eq_false_iff_not]
  exact h

theorem skipWs_not {c : Char} (r : List Char) (h : isWs c = false) :
    skipWs (c :: r) = c :: r := by
  simp [skipWs, h]

theorem isWs_digitChar {d : Nat} (hd : d < 10) : isWs (digitChar d) = false := by
  apply isWs_eq_false
  rintro (h | h | h | h)
  · exact digitChar_ne hd ' ' (by decide) h
  · exact digitChar_ne hd '\t' (by decide) h
  · exact digitChar_ne hd '\n' (by decide) h
  · exact digitChar_ne hd '\r' (by decide) h

theorem parseValue_string (f : Nat) (l : List Char) :
    parseValue (f + 1) ('"' :: l) =
      (match parseStringBody (l.length + 1) [] l with
      | .error e => .error e
      | .ok (s, rest2) => .ok (.str s, rest2)) := rfl

theorem parseValue_obj_open (f : Nat) (l : List Char) :
    parseValue (f + 1) ('{' :: l) =
      (match skipWs l with
      | '}' :: rest2 => .ok (.obj [], rest2)
      | rest2 =>
        match parseObjectItems f rest2 with
        | .error e => .error e
        | .ok (fields, rest3) => .ok (.obj fields, rest3)) := rfl

theorem parseValue_arr_open (f : Nat) (l : List Char) :
    parseValue (f + 1) ('[' :: l) =
      (match skipWs l with
      | ']' :: rest2 => .ok (.arr [], rest2)
      | rest2 =>
        match parseArrayItems f rest2 with
        | .error e => .error e
        | .ok (items, rest3) => .ok (.arr items, rest3)) := rfl

theorem parseObjectItems_key (f : Nat) (l : List Char) :
    parseObjectItems (f + 1) ('"' :: l) =
      (match parseStringBody (l.length + 1) [] l with
      | .error e => .error e
      | .ok (key, rest2) =>
        match skipWs rest2 with
        | ':' :: rest3 =>
          match parseValue f rest3 with
          | .error e => .error e
          | .ok (v, rest4) =>
            match skipWs rest4 with
            | ',' :: rest5 =>
              match parseObjectItems f rest5 with
              | .error e => .error e
              | .ok (fields, rest6) => .ok ((key, v) :: fields, rest6)
            | '}' :: rest5 => .ok ([(key, v)], rest5)
            | _ => .error "expected comma or closing brace in object"
        | _ => .error "expected colon after object key") := rfl

theorem parseValue_num (f : Nat) (c : Char) (l : List Char)
    (h1 : c ≠ '{') (h2 : c ≠ '[') (h3 : c ≠ '"') (h4 : c ≠ 't') (h5 : c ≠ 'f')
    (h6 : c ≠ 'n') (h7 : c = '-' ∨ isDig c = true) (hws : isWs c = false) :
    parseValue (f + 1) (c :: l) =
      (match parseNumberLit (c :: l) with
      | some (lit, rest2) => .ok (.num (String.mk lit), rest2)
      | none => .error "invalid number literal") := by
  simp only [parseValue, skipWs_not l hws, if_neg h1, if_neg h2, if_neg h3,
    if_neg h4, if_neg h5, if_neg h6, if_pos h7]

theorem parseValue_renderString (f : Nat) (s : String) (rest : List Char) :
    parseValue (f + 1) (renderString s ++ rest) = .ok (.str s, rest) := by
  have hshape : renderString s ++ rest = '"' :: (escapeChars s.data ++ '"' :: rest) := by
    simp [renderString]
  rw [hshape, parseValue_string]
  rw [parseStringBody_renderString _ s rest (by simp [List.length_append]; omega)]

theorem skipWs_colon (X : List Char) : skipWs (':' :: X) = ':' :: X :=
  skipWs_not X (by decide)

theorem skipWs_comma (X : List Char) : skipWs (',' :: X) = ',' :: X :=
  skipWs_not X (by decide)

theorem skipWs_rbrace (X : List Char) : skipWs ('}' :: X) = '}' :: X :=
  skipWs_not X (by decide)

theorem skipWs_lbrace (X : List Char) : skipWs ('{' :: X) = '{' :: X :=
  skipWs_not X (by decide)

theorem skipWs_rbracket (X : List Char) : skipWs (']' :: X) = ']' :: X :=
  skipWs_not X (by decide)

theorem parseStringBody_render_auto (s : String) (rest : List Char) :
    parseStringBody ((escapeChars s.data ++ '"' :: rest).length + 1) []
      (escapeChars s.data ++ '"' :: rest) = .ok (s, rest) := by
  apply parseStringBody_renderString
  simp [List.length_append]
  omega

theorem parseValue_obj_key (f : Nat) (l : List Char) :
    parseValue (f + 1) ('{' :: '"' :: l) =
      (match parseObjectItems f ('"' :: l) with
      | .error e => .error e
      | .ok (fields, rest3) => .ok (.obj fields, rest3)) := rfl

theorem parseValue_arr_empty (f : Nat) (t : List Char) :
    parseValue (f + 1) ('[' :: ']' :: t) = .ok (.arr [], t) := rfl

theorem parseValue_arr_brace (f : Nat) (l : List Char) :
    parseValue (f + 1) ('[' :: '{' :: l) =
      (match parseArrayItems f ('{' :: l) with
      | .error e => .error e
      | .ok (items, rest3) => .ok (.arr items, rest3)) := rfl

theorem parseArrayItems_unfold (f : Nat) (cs : List Char) :
    parseArrayItems (f + 1) cs =
      (match parseValue f cs with
      | .error e => .error e
      | .ok (v, rest) =>
        match skipWs rest with
        | ',' :: rest2 =>
          match parseArrayItems f rest2 with
          | .error e => .error e
          | .ok (items, rest3) => .ok (v :: items, rest3)
        | ']' :: rest2 => .ok ([v], rest2)
        | _ => .error "expected comma or closing bracket in array") := rfl

theorem parseValue_renderInt (f : Nat) (i : Int) (t : List Char) :
    parseValue (f + 1) (intLit i ++ '}' :: t) =
      .ok (.num (String.mk (intLit i)), '}' :: t) := by
  have hnum : parseNumberLit (intLit i ++ '}' :: t) = some (intLit i, '}' :: t) :=
    parseNumberLit_intLit i '}' t (by decide) (by decide) (by decide)
  by_cases hneg : i < 0
  · rw [intLit_neg hneg] at hnum ⊢
    rw [List.cons_append, parseValue_num f '-' _ (by decide) (by decide) (by decide)
      (by decide) (by decide) (by decide) (Or.inl rfl) (by decide)]
    rw [← List.cons_append, hnum]
  · rw [intLit_nonneg (by omega)] at hnum ⊢
    obtain ⟨d, r, hd10, hpos, hrep, hall⟩ := natDigits_shape i.toNat
    rw [hrep] at hnum ⊢
    rw [List.cons_append, parseValue_num f (digitChar d) _
      (digitChar_ne hd10 '{' (by decide)) (digitChar_ne hd10 '[' (by decide))
      (digitChar_ne hd10 '"' (by decide)) (digitChar_ne hd10 't' (by decide))
      (digitChar_ne hd10 'f' (by decide)) (digitChar_ne hd10 'n' (by decide))
      (Or.inr (isDig_digitChar hd10)) (isWs_digitChar hd10)]
    rw [← List.cons_append, hnum]

/-!  ## Parsing one serialized record -/

theorem parseValue_record_none (fuel : Nat) (hf : 4 ≤ fuel) (kind : String)
    (rest : List Char) (hk : kind ≠ "") :
    parseValue fuel (renderRecord ⟨kind, none⟩ ++ rest) =
      .ok (.obj [("kind", JValue.str kind)], rest) := by
  obtain ⟨f1, rfl⟩ : ∃ f', fuel = f' + 1 := ⟨fuel - 1, by omega⟩
  obtain ⟨f2, rfl⟩ : ∃ f', f1 = f' + 1 := ⟨f1 - 1, by omega⟩
  obtain ⟨f3, rfl⟩ : ∃ f', f2 = f' + 1 := ⟨f2 - 1, by omega⟩
  have hshape : renderRecord ⟨kind, none⟩ ++ rest =
      '{' :: '"' :: (escapeChars "kind".data ++
        '"' :: ':' :: (renderString kind ++ '}' :: rest)) := by
    simp [renderRecord, renderRecordFields, hk, joinComma, renderString]
  rw [hshape, parseValue_obj_key, parseObjectItems_key]
  rw [parseStringBody_renderString _ "kind" _ (by
    simp only [List.length_append, List.length_cons]
    omega)]
  simp only []
  rw [skipWs_colon]
  simp
  rw [parseValue_renderString f3 kind ('}' :: rest)]
  simp only []
  rw [skipWs_rbrace]
  simp

theorem parseValue_record_str (fuel : Nat) (hf : 5 ≤ fuel) (kind s : String)
    (rest : List Char) (hk : kind ≠ "") :
    parseValue fuel (renderRecord ⟨kind, some (.str s)⟩ ++ rest) =
      .ok (.obj [("kind", JValue.str kind), ("value", JValue.str s)], rest) := by
  obtain ⟨f1, rfl⟩ : ∃ f', fuel = f' + 1 := ⟨fuel - 1, by omega⟩
  obtain ⟨f2, rfl⟩ : ∃ f', f1 = f' + 1 := ⟨f1 - 1, by omega⟩
  obtain ⟨f3, rfl⟩ : ∃ f', f2 = f' + 1 := ⟨f2 - 1, by omega⟩
  obtain ⟨f4, rfl⟩ : ∃ f', f3 = f' + 1 := ⟨f3 - 1, by omega⟩
  have hshape : renderRecord ⟨kind, some (.str s)⟩ ++ rest =
      '{' :: '"' :: (escapeChars "kind".data ++
        '"' :: ':' :: (renderString kind ++
          ',' :: '"' :: (escapeChars "value".data ++
            '"' :: ':' :: (renderString s ++ '}' :: rest)))) := by
    simp [renderRecord, renderRecordFields, hk, joinComma, renderString,
      renderOutValue]
  rw [hshape, parseValue_obj_key, parseObjectItems_key]
  rw [parseStringBody_renderString _ "kind" _ (by
    simp only [List.length_append, List.length_cons]
    omega)]
  simp only []
  rw [skipWs_colon]
  simp
  rw [parseValue_renderString (f4 + 1) kind]
  simp only []
  rw [skipWs_comma]
  simp
  rw [parseObjectItems_key]
  rw [parseStringBody_renderString _ "value" _ (by
    simp only [List.length_append, List.length_cons]
    omega)]
  simp only []
  rw [skipWs_colon]
  simp
  rw [parseValue_renderString f4 s ('}' :: rest)]
  simp only []
  rw [skipWs_rbrace]
  simp

theorem parseValue_record_int (fuel : Nat) (hf : 5 ≤ fuel) (kind : String) (i : Int)
    (rest : List Char) (hk : kind ≠ "") :
    parseValue fuel (renderRecord ⟨kind, some (.int i)⟩ ++ rest) =
      .ok (.obj [("kind", JValue.str kind),
        ("value", JValue.num (String.mk (intLit i)))], rest) := by
  obtain ⟨f1, rfl⟩ : ∃ f', fuel = f' + 1 := ⟨fuel - 1, by omega⟩
  obtain ⟨f2, rfl⟩ : ∃ f', f1 = f' + 1 := ⟨f1 - 1, by omega⟩
  obtain ⟨f3, rfl⟩ : ∃ f', f2 = f' + 1 := ⟨f2 - 1, by omega⟩
  obtain ⟨f4, rfl⟩ : ∃ f', f3 = f' + 1 := ⟨f3 - 1, by omega⟩
  have hshape : renderRecord ⟨kind, some (.int i)⟩ ++ rest =
      '{' :: '"' :: (escapeChars "kind".data ++
        '"' :: ':' :: (renderString kind ++
          ',' :: '"' :: (escapeChars "value".data ++
            '"' :: ':' :: (intLit i ++ '}' :: rest)))) := by
    simp [renderRecord, renderRecordFields, hk, joinComma, renderString,
      renderOutValue]
  rw [hshape, parseValue_obj_key, parseObjectItems_key]
  rw [parseStringBody_renderString _ "kind" _ (by
    simp only [List.length_append, List.length_cons]
    omega)]
  simp only []
  rw [skipWs_colon]
  simp
  rw [parseValue_renderString (f4 + 1) kind]
  simp only []
  rw [skipWs_comma]
  simp
  rw [parseObjectItems_key]
  rw [parseStringBody_renderString _ "value" _ (by
    simp only [List.length_append, List.length_cons]
    omega)]
  simp only []
  rw [skipWs_colon]
  simp
  rw [parseValue_renderInt f4 i rest]
  simp only []
  rw [skipWs_rbrace]
  simp

theorem parseValue_record (fuel : Nat) (hf : 5 ≤ fuel) (g : genericStepOut)
    (rest : List Char) (hk : g.Kind ≠ "") :
    parseValue fuel (renderRecord g ++ rest) = .ok (recordJany g, rest) := by
  rcases g with ⟨kind, val⟩
  have hk' : kind ≠ "" := hk
  rcases val with _ | v
  · rw [parseValue_record_none fuel (by omega) kind rest hk']
    simp [recordJany, hk']
  · rcases v with s | i
    · rw [parseValue_record_str fuel hf kind s rest hk']
      simp [recordJany, hk']
    · rw [parseValue_record_int fuel hf kind i rest hk']
      simp [recordJany, hk']

/-!  ## Struct mapping and dispatch loop on transported records -/

theorem janyToGenericStep_recordJany (g : genericStepOut) :
    janyToGenericStep (recordJany g) = .ok (transportRecord g) := by
  rcases g with ⟨kind, val⟩
  by_cases hk : kind = ""
  · subst hk
    rcases val with _ | v
    · rfl
    · rcases v with s | i <;> rfl
  · rcases val with _ | v
    · simp only [recordJany, transportRecord, if_neg hk]
      rfl
    · rcases v with s | i <;>
      · simp only [recordJany, transportRecord, if_neg hk]
        rfl

theorem janyListToGenSteps_records (gs : List genericStepOut) :
    janyListToGenSteps (gs.map recordJany) = .ok (gs.map transportRecord) := by
  induction gs with
  | nil => rfl
  | cons g rest ih =>
    simp only [List.map_cons, janyListToGenSteps, janyToGenericStep_recordJany g, ih]

theorem marshalRecords_cons (s : Step) (rest : Steps) :
    marshalRecords (s :: rest) = wireRecord s :: marshalRecords rest := by
  cases s <;> rfl

theorem marshalRecords_eq_map (steps : Steps) :
    marshalRecords steps = steps.map wireRecord := by
  induction steps with
  | nil => rfl
  | cons s rest ih => rw [marshalRecords_cons, ih, List.map_cons]

theorem wireRecord_kind_ne (s : Step) : (wireRecord s).Kind ≠ "" := by
  cases s <;> simp [wireRecord]

theorem marshalRecords_kind_ne (steps : Steps) :
    ∀ g ∈ marshalRecords steps, g.Kind ≠ "" := by
  intro g hg
  rw [marshalRecords_eq_map] at hg
  obtain ⟨s, _, rfl⟩ := List.mem_map.mp hg
  exact wireRecord_kind_ne s

theorem decode_transport_step (pos : Nat) (s : Step) (hs : stepInBounds s = true) :
    decodeGenericStep pos (transportRecord (wireRecord s)) = .ok s := by
  cases s with
  | BodyStep => rfl
  | HeaderStep name => rfl
  | URLParamStep name => rfl
  | ObjectPropertyStep name => rfl
  | ArrayIndexStep i =>
    simp only [stepInBounds, decide_eq_true_eq] at hs
    show decodeGenericStep pos
      ⟨"array_index", some (.num (String.mk (intLit i)))⟩ = .ok (Step.ArrayIndexStep i)
    simp [decodeGenericStep, ParseInt64_intLit i hs.1 hs.2]
  | StringIndexStep i =>
    simp only [stepInBounds, decide_eq_true_eq] at hs
    show decodeGenericStep pos
      ⟨"string_index", some (.num (String.mk (intLit i)))⟩ = .ok (Step.StringIndexStep i)
    simp [decodeGenericStep, ParseInt64_intLit i hs.1 hs.2]

theorem unmarshalFrom_transport (steps : Steps) :
    ∀ (pos : Nat) (acc : Steps), StepsInBounds steps →
      unmarshalFrom pos acc ((marshalRecords steps).map transportRecord) =
        .ok (acc ++ steps) := by
  induction steps with
  | nil =>
    intro pos acc _
    simp [marshalRecords, unmarshalFrom]
  | cons s rest ih =>
    intro pos acc h
    have hs : stepInBounds s = true := h s (List.mem_cons_self _ _)
    have hrest : StepsInBounds rest := fun x hx => h x (List.mem_cons_of_mem _ hx)
    rw [marshalRecords_cons, List.map_cons]
    simp only [unmarshalFrom, decode_transport_step pos s hs, Steps.AddStep]
    rw [ih (pos + 1) (acc ++ [s]) hrest]
    simp

/-!  ## Parsing the serialized record array -/

theorem matchComma_arr (f : Nat) (v : JValue) (X : List Char) :
    (match ',' :: X with
     | ',' :: rest2 =>
       match parseArrayItems f rest2 with
       | Except.error e => Except.error e
       | Except.ok (items, rest3) => Except.ok (v :: items, rest3)
     | ']' :: rest2 => Except.ok ([v], rest2)
     | _ => (Except.error "expected comma or closing bracket in array" :
        Except String (List JValue × List Char))) =
      (match parseArrayItems f X with
      | Except.error e => Except.error e
      | Except.ok (items, rest3) => Except.ok (v :: items, rest3)) := rfl

theorem matchBracket_arr (f : Nat) (v : JValue) (X : List Char) :
    (match ']' :: X with
     | ',' :: rest2 =>
       match parseArrayItems f rest2 with
       | Except.error e => Except.error e
       | Except.ok (items, rest3) => Except.ok (v :: items, rest3)
     | ']' :: rest2 => Except.ok ([v], rest2)
     | _ => (Except.error "expected comma or closing bracket in array" :
        Except String (List JValue × List Char))) = Except.ok ([v], X) := rfl

theorem renderRecord_length_pos (g : genericStepOut) :
    1 ≤ (renderRecord g).length := by
  simp [renderRecord]

theorem joinComma_records_length (gs : List genericStepOut) :
    gs.length ≤ (joinComma (gs.map renderRecord)).length := by
  induction gs with
  | nil => simp
  | cons g rest ih =>
    rcases rest with _ | ⟨g2, rest'⟩
    · simpa using renderRecord_length_pos g
    · have h1 := renderRecord_length_pos g
      simp only [List.map_cons, joinComma, List.length_append, List.length_cons]
      simp only [List.map_cons, joinComma, List.length_cons] at ih
      omega

theorem parseArrayItems_records :
    ∀ (gs : List genericStepOut) (fuel : Nat) (rest : List Char),
      (∀ g ∈ gs, g.Kind ≠ "") → gs ≠ [] →
      parseArrayItems (gs.length + fuel + 6)
          (joinComma (gs.map renderRecord) ++ ']' :: rest) =
        .ok (gs.map recordJany, rest) := by
  intro gs
  induction gs with
  | nil =>
    intro fuel rest _ hne
    exact absurd rfl hne
  | cons g gs ih =>
    intro fuel rest hall hne
    have hkg : g.Kind ≠ "" := hall g (List.mem_cons_self _ _)
    rcases gs with _ | ⟨g2, gs'⟩
    · rw [show ((g :: []).length + fuel + 6 : Nat) = (fuel + 6) + 1 by
        simp only [List.length_cons, List.length_nil]
        omega]
      rw [parseArrayItems_unfold]
      simp only [List.map_cons, List.map_nil, joinComma]
      rw [parseValue_record (fuel + 6) (by omega) g (']' :: rest) hkg]
      simp only []
      rw [skipWs_rbracket, matchBracket_arr]
    · rw [show ((g :: g2 :: gs').length + fuel + 6 : Nat) =
        ((g2 :: gs').length + fuel + 6) + 1 by simp only [List.length_cons]; omega]
      rw [parseArrayItems_unfold]
      simp only [List.map_cons, joinComma, List.append_assoc, List.cons_append]
      rw [show renderRecord g ++ ',' ::
          (joinComma (renderRecord g2 :: List.map renderRecord gs') ++ ']' :: rest) =
        renderRecord g ++ ',' ::
          (joinComma (List.map renderRecord (g2 :: gs')) ++ ']' :: rest) by
        simp]
      rw [parseValue_record ((g2 :: gs').length + fuel + 6) (by
        simp only [List.length_cons]; omega) g _ hkg]
      simp only []
      rw [skipWs_comma, matchComma_arr]
      rw [ih fuel rest (fun x hx => hall x (List.mem_cons_of_mem _ hx)) (by simp)]
      simp

/-!  ## Top-level decode of marshalled output -/

theorem decodeTopLevel_eq (cs : List Char) :
    decodeTopLevel cs =
      (match parseValue (cs.length + 8) cs with
      | .error e => .error e
      | .ok (v, _) => janyToGenSteps v) := rfl

theorem joinComma_records_head (g : genericStepOut) (gs : List genericStepOut) :
    ∃ T, joinComma ((g :: gs).map renderRecord) = '{' :: T := by
  rcases gs with _ | ⟨g2, gs'⟩
  · exact ⟨_, rfl⟩
  · exact ⟨_, rfl⟩

theorem decodeTopLevel_marshalNE (g : genericStepOut) (gs : List genericStepOut)
    (hall : ∀ x ∈ g :: gs, x.Kind ≠ "") :
    decodeTopLevel (renderRecords (g :: gs)) = .ok ((g :: gs).map transportRecord) := by
  obtain ⟨T, hT⟩ := joinComma_records_head g gs
  have hlen := joinComma_records_length (g :: gs)
  rw [show renderRecords (g :: gs) =
      '[' :: (joinComma ((g :: gs).map renderRecord) ++ [']']) from rfl]
  rw [decodeTopLevel_eq]
  obtain ⟨fz, hfz⟩ : ∃ fz,
      ('[' :: (joinComma ((g :: gs).map renderRecord) ++ [']'])).length + 8 =
        ((g :: gs).length + fz + 6) + 1 := by
    refine ⟨('[' :: (joinComma ((g :: gs).map renderRecord) ++ [']'])).length + 1 -
      (g :: gs).length, ?_⟩
    simp only [List.length_cons, List.length_append, List.length_nil] at hlen ⊢
    omega
  rw [hfz, hT, List.cons_append, parseValue_arr_brace]
  rw [← List.cons_append, ← hT]
  rw [parseArrayItems_records (g :: gs) fz [] hall (by simp)]
  simp only [janyToGenSteps]
  rw [janyListToGenSteps_records]

theorem unmarshal_marshal (steps : Steps) (h : StepsInBounds steps) :
    Steps.UnmarshalJSON (Steps.MarshalJSON steps) = .ok steps := by
  rcases hsteps : marshalRecords steps with _ | ⟨g, gs⟩
  · have hnil : steps = [] := by
      have hmap := marshalRecords_eq_map steps
      rw [hsteps] at hmap
      exact List.map_eq_nil.mp hmap.symm
    subst hnil
    rfl
  · have hall : ∀ x ∈ g :: gs, x.Kind ≠ "" := by
      rw [← hsteps]
      exact marshalRecords_kind_ne steps
    simp only [Steps.UnmarshalJSON]
    rw [show (Steps.MarshalJSON steps).data = renderRecords (marshalRecords steps)
      from rfl, hsteps]
    rw [decodeTopLevel_marshalNE g gs hall]
    simp only [unmarshalLoop]
    rw [← hsteps, unmarshalFrom_transport steps 0 [] h]
    simp

/-!  ## Properties of the dispatch loop -/

theorem exceptMapMap {ε α β γ : Type} (f : β → γ) (g : α → β) (x : Except ε α) :
    Except.map f (Except.map g x) = Except.map (fun a => f (g a)) x := by
  cases x <;> rfl

theorem unmarshalFrom_acc (gs : List genericStep) :
    ∀ (pos : Nat) (acc : Steps),
      unmarshalFrom pos acc gs =
        Except.map (fun ts => acc ++ ts) (unmarshalFrom pos [] gs) := by
  induction gs with
  | nil =>
    intro pos acc
    simp [unmarshalFrom, Except.map]
  | cons g rest ih =>
    intro pos acc
    simp only [unmarshalFrom]
    cases hd : decodeGenericStep pos g with
    | error e => simp [Except.map]
    | ok s =>
      simp only []
      rw [ih (pos + 1) (Steps.AddStep acc s), ih (pos + 1) (Steps.AddStep [] s),
        exceptMapMap]
      congr 1
      funext ts
      simp [Steps.AddStep]

theorem unmarshalFrom_error_at :
    ∀ (pos : Nat) (gs : List genericStep) (p : Nat) (acc : Steps) (g : genericStep)
      (e : DecodeError),
      gs[pos]? = some g → decodeGenericStep (p + pos) g = .error e →
      (∃ T, unmarshalFrom p acc (gs.take pos) = .ok T) →
      unmarshalFrom p acc gs = .error e := by
  intro pos
  induction pos with
  | zero =>
    intro gs p acc g e hget hdec _
    rcases gs with _ | ⟨g0, rest⟩
    · simp at hget
    · simp only [List.getElem?_cons_zero] at hget
      injection hget with hget
      subst hget
      simp only [unmarshalFrom]
      rw [show decodeGenericStep p g0 = .error e from hdec]
  | succ n ih =>
    intro gs p acc g e hget hdec hpre
    rcases gs with _ | ⟨g0, rest⟩
    · simp at hget
    · obtain ⟨T, hT⟩ := hpre
      rw [List.take_succ_cons] at hT
      simp only [unmarshalFrom] at hT ⊢
      cases hd : decodeGenericStep p g0 with
      | error e0 =>
        rw [hd] at hT
        simp at hT
      | ok s =>
        rw [hd] at hT
        simp only [] at hT ⊢
        refine ih rest (p + 1) (Steps.AddStep acc s) g e ?_ ?_ ⟨T, hT⟩
        · simpa using hget
        · rw [show p + 1 + n = p + (n + 1) by omega]
          exact hdec

theorem unmarshalFrom_ok_get :
    ∀ (gs : List genericStep) (p : Nat) (acc S : Steps),
      unmarshalFrom p acc gs = .ok S →
      ∀ (i : Nat) (g : genericStep), gs[i]? = some g →
        ∃ s, decodeGenericStep (p + i) g = .ok s := by
  intro gs
  induction gs with
  | nil =>
    intro p acc S _ i g hg
    simp at hg
  | cons g0 rest ih =>
    intro p acc S hok i g hg
    simp only [unmarshalFrom] at hok
    cases hd : decodeGenericStep p g0 with
    | error e =>
      rw [hd] at hok
      simp at hok
    | ok s =>
      rw [hd] at hok
      simp only [] at hok
      rcases i with _ | n
      · simp only [List.getElem?_cons_zero] at hg
        injection hg with hg
        subst hg
        exact ⟨s, by simpa using hd⟩
      · simp only [List.getElem?_cons_succ] at hg
        obtain ⟨s', hs'⟩ := ih (p + 1) _ S hok n g hg
        exact ⟨s', by rw [show p + (n + 1) = p + 1 + n by omega]; exact hs'⟩

theorem unmarshalFrom_ok_forall2 :
    ∀ (gs : List genericStep) (p : Nat) (ts : Steps),
      unmarshalFrom p [] gs = .ok ts →
      List.Forall₂ (fun (pg : Nat × genericStep) (s : Step) =>
        decodeGenericStep pg.1 pg.2 = .ok s) (List.enumFrom p gs) ts := by
  intro gs
  induction gs with
  | nil =>
    intro p ts h
    simp only [unmarshalFrom] at h
    injection h with h
    subst h
    exact List.Forall₂.nil
  | cons g rest ih =>
    intro p ts h
    simp only [unmarshalFrom] at h
    cases hd : decodeGenericStep p g with
    | error e =>
      rw [hd] at h
      simp at h
    | ok s =>
      rw [hd] at h
      simp only [] at h
      rw [show Steps.AddStep [] s = [s] from rfl, unmarshalFrom_acc rest (p + 1) [s]] at h
      cases hrec : unmarshalFrom (p + 1) [] rest with
      | error e =>
        rw [hrec] at h
        simp [Except.map] at h
      | ok ts' =>
        rw [hrec] at h
        simp only [Except.map] at h
        injection h with h
        subst h
        show List.Forall₂ _ ((p, g) :: List.enumFrom (p + 1) rest) (s :: ts')
        exact List.Forall₂.cons hd (ih (p + 1) ts' hrec)

theorem decodeGenericStep_index_inv (pos : Nat) (g : genericStep) (i : Int)
    (h : decodeGenericStep pos g = .ok (.ArrayIndexStep i) ∨
      decodeGenericStep pos g = .ok (.StringIndexStep i)) :
    -(2 ^ 63) ≤ i ∧ i < 2 ^ 63 ∧
      ∃ lit2, g.Value = some (.num lit2) ∧ plainIntValue lit2 = some i := by
  unfold decodeGenericStep at h
  split_ifs at h with h1 h2 h3 h4 h5 h6
  · rcases h with h | h <;> simp at h
  · rcases hv : g.Value with _ | v <;> rw [hv] at h
    · rcases h with h | h <;> simp at h
    · rcases v with _ | b | lit2 | s | items | fields <;>
        rcases h with h | h <;> simp at h
  · rcases hv : g.Value with _ | v <;> rw [hv] at h
    · rcases h with h | h <;> simp at h
    · rcases v with _ | b | lit2 | s | items | fields <;>
        rcases h with h | h <;> simp at h
  · -- array_index
    rcases hv : g.Value with _ | v <;> rw [hv] at h
    · rcases h with h | h <;> simp at h
    · rcases v with _ | b | lit2 | s | items | fields
      · rcases h with h | h <;> simp at h
      · rcases h with h | h <;> simp at h
      · simp only [] at h
        rcases hp : ParseInt64 lit2 with e | idx <;> rw [hp] at h
        · rcases h with h | h <;> simp at h
        · simp only [] at h
          have hidx : idx = i := by
            rcases h with h | h
            · injection h with h
              injection h
            · injection h with h
              cases h
          subst hidx
          have hfacts := (ParseInt64_plain lit2 idx).mp hp
          exact ⟨hfacts.2.1, hfacts.2.2, lit2, rfl, hfacts.1⟩
      · rcases h with h | h <;> simp at h
      · rcases h with h | h <;> simp at h
      · rcases h with h | h <;> simp at h
  · rcases hv : g.Value with _ | v <;> rw [hv] at h
    · rcases h with h | h <;> simp at h
    · rcases v with _ | b | lit2 | s | items | fields <;>
        rcases h with h | h <;> simp at h
  · -- string_index
    rcases hv : g.Value with _ | v <;> rw [hv] at h
    · rcases h with h | h <;> simp at h
    · rcases v with _ | b | lit2 | s | items | fields
      · rcases h with h | h <;> simp at h
      · rcases h with h | h <;> simp at h
      · simp only [] at h
        rcases hp : ParseInt64 lit2 with e | idx <;> rw [hp] at h
        · rcases h with h | h <;> simp at h
        · simp only [] at h
          have hidx : idx = i := by
            rcases h with h | h
            · injection h with h
              cases h
            · injection h with h
              injection h
          subst hidx
          have hfacts := (ParseInt64_plain lit2 idx).mp hp
          exact ⟨hfacts.2.1, hfacts.2.2, lit2, rfl, hfacts.1⟩
      · rcases h with h | h <;> simp at h
      · rcases h with h | h <;> simp at h
      · rcases h with h | h <;> simp at h
  · rcases h with h | h <;> simp at h

/-!  ## Shared helpers for the claim theorems -/

/-- A record whose kind is outside the six known tags hits the `default`
branch of the dispatch switch. -/
theorem decodeGenericStep_unknown (pos : Nat) (g : genericStep)
    (hbad : g.Kind ∉ (["body", "header", "url_param", "array_index",
      "object_property", "string_index"] : List String)) :
    decodeGenericStep pos g = .error (.unknownKind pos g.Kind g.Value) := by
  simp only [List.mem_cons, List.not_mem_nil, or_false, not_or] at hbad
  obtain ⟨n1, n2, n3, n4, n5, n6⟩ := hbad
  unfold decodeGenericStep
  rw [if_neg n1, if_neg n2, if_neg n3, if_neg n4, if_neg n5, if_neg n6]

/-- If every record before position `pos` decodes and the record at `pos`
fails with `e`, the whole loop fails with `e`. -/
theorem unmarshalLoop_error_at (gs : List genericStep) (pos : Nat)
    (g : genericStep) (e : DecodeError) (hget : gs[pos]? = some g)
    (hdec : decodeGenericStep pos g = .error e)
    (hpre : ∃ T, unmarshalFrom 0 [] (gs.take pos) = .ok T) :
    unmarshalLoop gs = .error e := by
  show unmarshalFrom 0 [] gs = .error e
  exact unmarshalFrom_error_at pos gs 0 [] g e hget
    (by rw [Nat.zero_add]; exact hdec) hpre

/-- `replaceChar` distributes over list concatenation. -/
theorem replaceChar_append (c : Char) (repl : List Char) (l1 l2 : List Char) :
    replaceChar c repl (l1 ++ l2) = replaceChar c repl l1 ++ replaceChar c repl l2 := by
  induction l1 with
  | nil => rfl
  | cons x rest ih => simp [replaceChar, ih]

/-- Character-level description of `jsonpointer.Escape`: `~` becomes `~0`,
`/` becomes `~1`, and every other character is kept unchanged. -/
theorem Escape_cons (c : Char) (s : String) :
    Escape (String.mk (c :: s.data)) =
      String.mk ((if c = '~' then ['~', '0'] else if c = '/' then ['~', '1'] else [c]) ++
        (Escape s).data) := by
  show String.mk (replaceChar '/' ['~', '1'] (replaceChar '~' ['~', '0'] (c :: s.data))) = _
  by_cases h0 : c = '~'
  · subst h0
    simp [replaceChar, replaceChar_append, Escape]
  · by_cases h1 : c = '/'
    · subst h1
      simp [replaceChar, replaceChar_append, Escape]
    · simp [replaceChar, replaceChar_append, Escape, h0, h1]

/-- Joining escaped segments with `/` after a first element agrees with the
standard-pointer recursion. -/
theorem stringsJoin_escape (l : List String) (a : String) :
    stringsJoin "/" (a :: l.map Escape) = a ++ rfcPointer l := by
  induction l generalizing a with
  | nil => simp [stringsJoin, rfcPointer]
  | cons y rest ih =>
    simp only [List.map_cons, stringsJoin, rfcPointer]
    rw [ih (Escape y), String.append_assoc, String.append_assoc]

/-- `buildPointerPath` computes exactly the standard JSON-Pointer string of
the escaped segments. -/
theorem build_eq_rfc (segments : List String) :
    buildPointerPath segments = rfcPointer segments := by
  cases segments with
  | nil => rfl
  | cons x rest =>
    show (if (x :: rest).length < 1 then "" else
      "/" ++ stringsJoin "/" ((x :: rest).map Escape)) = _
    rw [if_neg (by simp)]
    rw [List.map_cons, stringsJoin_escape rest (Escape x)]
    show "/" ++ (Escape x ++ rfcPointer rest) = "/" ++ Escape x ++ rfcPointer rest
    rw [String.append_assoc]

/-!  ## The claim theorems -/

/-- Claim C1: for every Step sequence constructible from the six variants
(index payloads in the `int64` range), decoding the JSON text produced by
encoding the sequence yields the same sequence, order and payloads
preserved. -/
theorem C1_round_trip (steps : Steps) (h : StepsInBounds steps) :
    Steps.UnmarshalJSON (Steps.MarshalJSON steps) = .ok steps :=
  unmarshal_marshal steps h

/-- Witness for C1 at a six-variant sequence. -/
theorem C1_round_trip_witness :
    StepsInBounds [Step.BodyStep, Step.HeaderStep "X-Request", Step.URLParamStep "id",
      Step.ArrayIndexStep (-3), Step.ObjectPropertyStep "name", Step.StringIndexStep 7] ∧
    Steps.UnmarshalJSON (Steps.MarshalJSON
        [Step.BodyStep, Step.HeaderStep "X-Request", Step.URLParamStep "id",
          Step.ArrayIndexStep (-3), Step.ObjectPropertyStep "name",
          Step.StringIndexStep 7]) =
      .ok [Step.BodyStep, Step.HeaderStep "X-Request", Step.URLParamStep "id",
        Step.ArrayIndexStep (-3), Step.ObjectPropertyStep "name",
        Step.StringIndexStep 7] :=
  have hb : StepsInBounds [Step.BodyStep, Step.HeaderStep "X-Request",
      Step.URLParamStep "id", Step.ArrayIndexStep (-3),
      Step.ObjectPropertyStep "name", Step.StringIndexStep 7] := by
    intro s hs
    simp only [List.mem_cons, List.not_mem_nil, or_false] at hs
    rcases hs with rfl | rfl | rfl | rfl | rfl | rfl <;> decide
  ⟨hb, C1_round_trip _ hb⟩

/-- Claim C2: encoding builds exactly one generic record per step, in the
original order (so n steps yield n records), each record matching the
spec's per-variant table (`wireRecord`), and serializes the record list as
a JSON array. -/
theorem C2_encode_shape (steps : Steps) :
    marshalRecords steps = steps.map wireRecord ∧
    (marshalRecords steps).length = steps.length ∧
    (Steps.MarshalJSON steps).data =
      '[' :: joinComma ((steps.map wireRecord).map renderRecord) ++ [']'] := by
  refine ⟨marshalRecords_eq_map steps, ?_, ?_⟩
  · rw [marshalRecords_eq_map]
    simp
  · show (String.mk (renderRecords (marshalRecords steps))).data = _
    rw [marshalRecords_eq_map steps]
    rfl

/-- Claim C3: the empty sequence encodes to the two-character text "[]",
and decoding "[]" succeeds with the empty sequence. -/
theorem C3_empty :
    Steps.MarshalJSON [] = "[]" ∧ (Steps.MarshalJSON []).length = 2 ∧
      Steps.UnmarshalJSON "[]" = .ok [] :=
  ⟨by decide, by decide, rfl⟩

/-- Claim C4: a record whose kind is outside the six known tags makes the
decode fail (never succeed), and when every earlier record decodes, the
error reported is `unknownKind` carrying the record's 0-based position and
the unknown tag. -/
theorem C4_unknown_kind (gs : List genericStep) (pos : Nat) (g : genericStep)
    (hget : gs[pos]? = some g)
    (hbad : g.Kind ∉ (["body", "header", "url_param", "array_index",
      "object_property", "string_index"] : List String)) :
    (∀ S, unmarshalLoop gs ≠ .ok S) ∧
    ((∃ T, unmarshalFrom 0 [] (gs.take pos) = .ok T) →
      unmarshalLoop gs = .error (.unknownKind pos g.Kind g.Value)) := by
  have hdec := decodeGenericStep_unknown pos g hbad
  constructor
  · intro S hS
    unfold unmarshalLoop at hS
    obtain ⟨s, hs⟩ := unmarshalFrom_ok_get gs 0 [] S hS pos g hget
    rw [Nat.zero_add, hdec] at hs
    simp at hs
  · intro hpre
    exact unmarshalLoop_error_at gs pos g _ hget hdec hpre

/-- Witness for C4 on the one-record input with kind "bogus". -/
theorem C4_unknown_kind_witness :
    ([⟨"bogus", some (.bool true)⟩] : List genericStep)[0]? =
        some ⟨"bogus", some (.bool true)⟩ ∧
      unmarshalLoop [⟨"bogus", some (.bool true)⟩] =
        .error (.unknownKind 0 "bogus" (some (.bool true))) :=
  ⟨rfl, (C4_unknown_kind [⟨"bogus", some (.bool true)⟩] 0 ⟨"bogus", some (.bool true)⟩
    rfl (by decide)).2 ⟨[], rfl⟩⟩

/-- Claim C5: for `header`, `url_param` and `object_property` records the
value must be present and a string, and for `array_index` and
`string_index` records it must be present and a number whose literal has
no fractional part; each violation fails the decode with an error carrying
the record's position and saying whether the value was missing
(`noValue`), of the wrong type (`wrongType`), or not an integer
(`numError`). -/
theorem C5_value_validation (gs : List genericStep) (pos : Nat) (g : genericStep)
    (hget : gs[pos]? = some g)
    (hpre : ∃ T, unmarshalFrom 0 [] (gs.take pos) = .ok T) :
    ((g.Kind = "header" ∨ g.Kind = "url_param" ∨ g.Kind = "object_property") →
       (g.Value = none → unmarshalLoop gs = .error (.noValue pos)) ∧
       (∀ v, g.Value = some v → (∀ s, v ≠ .str s) →
          unmarshalLoop gs = .error (.wrongType pos "string" v))) ∧
    ((g.Kind = "array_index" ∨ g.Kind = "string_index") →
       (g.Value = none → unmarshalLoop gs = .error (.noValue pos)) ∧
       (∀ v, g.Value = some v → (∀ lit, v ≠ .num lit) →
          unmarshalLoop gs = .error (.wrongType pos "json.Number" v)) ∧
       (∀ lit, g.Value = some (.num lit) → '.' ∈ lit.data →
          unmarshalLoop gs = .error (.numError pos .errSyn))) := by
  have key : ∀ e, decodeGenericStep pos g = .error e → unmarshalLoop gs = .error e :=
    fun e he => unmarshalLoop_error_at gs pos g e hget he hpre
  constructor
  · intro hk
    constructor
    · intro hv
      exact key _ (by rcases hk with hk | hk | hk <;> simp [decodeGenericStep, hk, hv])
    · intro v hv hne
      refine key _ ?_
      rcases hk with hk | hk | hk <;>
        rcases v with _ | b | lit | s | items | fields <;>
          first
            | exact absurd rfl (hne _)
            | simp [decodeGenericStep, hk, hv]
  · intro hk
    refine ⟨?_, ?_, ?_⟩
    · intro hv
      exact key _ (by rcases hk with hk | hk <;> simp [decodeGenericStep, hk, hv])
    · intro v hv hne
      refine key _ ?_
      rcases hk with hk | hk <;>
        rcases v with _ | b | lit | s | items | fields <;>
          first
            | exact absurd rfl (hne _)
            | simp [decodeGenericStep, hk, hv]
    · intro lit hv hdot
      have hsyn := ParseInt64_dot lit hdot
      refine key _ ?_
      rcases hk with hk | hk <;> simp [decodeGenericStep, hk, hv, hsyn]

/-- Witness for C5 on an `array_index` record carrying the fractional
literal "1.5". -/
theorem C5_value_validation_witness :
    ([⟨"array_index", some (.num "1.5")⟩] : List genericStep)[0]? =
        some ⟨"array_index", some (.num "1.5")⟩ ∧
      unmarshalLoop [⟨"array_index", some (.num "1.5")⟩] =
        .error (.numError 0 .errSyn) :=
  ⟨rfl, ((C5_value_validation [⟨"array_index", some (.num "1.5")⟩] 0
      ⟨"array_index", some (.num "1.5")⟩ rfl ⟨[], rfl⟩).2
    (Or.inl rfl)).2.2 "1.5" rfl (by decide)⟩

/-- Claim C6: a successful decode consumes every record — the result has
one step per record, each produced by dispatching that record at its own
position (so nothing is skipped, defaulted or reordered) — and when the
record at some position is the first to fail, its error is the error of
the whole decode; no partial sequence is ever returned. -/
theorem C6_atomic_first_error (gs : List genericStep) :
    (∀ S, unmarshalLoop gs = .ok S →
       S.length = gs.length ∧
       List.Forall₂ (fun (pg : Nat × genericStep) (s : Step) =>
         decodeGenericStep pg.1 pg.2 = .ok s) (List.enumFrom 0 gs) S) ∧
    (∀ (pos : Nat) (g : genericStep) (e : DecodeError),
       gs[pos]? = some g → decodeGenericStep pos g = .error e →
       (∃ T, unmarshalFrom 0 [] (gs.take pos) = .ok T) →
       unmarshalLoop gs = .error e) := by
  constructor
  · intro S hS
    unfold unmarshalLoop at hS
    have h2 := unmarshalFrom_ok_forall2 gs 0 S hS
    refine ⟨?_, h2⟩
    have hlen := List.Forall₂.length_eq h2
    simpa [List.enumFrom_length] using hlen.symm
  · intro pos g e hget hdec hpre
    exact unmarshalLoop_error_at gs pos g e hget hdec hpre

/-- Witness for C6: the error of the second record surfaces as the error
of the whole decode once the first record is known good. -/
theorem C6_atomic_first_error_witness :
    unmarshalLoop [⟨"body", none⟩, ⟨"bogus", none⟩] =
      .error (.unknownKind 1 "bogus" none) :=
  (C6_atomic_first_error [⟨"body", none⟩, ⟨"bogus", none⟩]).2 1 ⟨"bogus", none⟩
    (.unknownKind 1 "bogus" none) rfl rfl ⟨[Step.BodyStep], rfl⟩

/-- Claim C7: BodyPath, HeaderPath and URLParamPath each seed the
one-element sequence of the matching variant, and AddStep extends a
sequence at the end, leaving every previously appended step in place. -/
theorem C7_constructors :
    BodyPath = [Step.BodyStep] ∧
    (∀ header, HeaderPath header = [Step.HeaderStep header]) ∧
    (∀ param, URLParamPath param = [Step.URLParamStep param]) ∧
    (∀ (s : Steps) (x : Step),
       s.AddStep x = s ++ [x] ∧ (s.AddStep x).take s.length = s) :=
  ⟨rfl, fun _ => rfl, fun _ => rfl, fun s x =>
    ⟨rfl, by simp [Steps.AddStep]⟩⟩

/-- Claim C8: a record of kind `body` decodes to a Body step no matter
whether a value is present or what JSON type it has. -/
theorem C8_body_ignores_value (pos : Nat) (v : Option JValue) :
    decodeGenericStep pos ⟨"body", v⟩ = .ok Step.BodyStep ∧
    unmarshalLoop [⟨"body", v⟩] = .ok [Step.BodyStep] :=
  ⟨rfl, rfl⟩

/-- Claim C9: NewBodyPointer, NewURLPointer and NewHeaderPointer tag the
pointer with `body`, `url` and `header` respectively, and build its Path
by escaping each segment (`~` to `~0`, `/` to `~1`, all else unchanged)
and joining the escaped segments with `/` in standard JSON-Pointer
style. -/
theorem C9_pointer_constructors (segments : List String) :
    NewBodyPointer segments = ⟨bodyPointer, rfcPointer segments⟩ ∧
    NewURLPointer segments = ⟨urlPointer, rfcPointer segments⟩ ∧
    NewHeaderPointer segments = ⟨headerPointer, rfcPointer segments⟩ ∧
    bodyPointer = "body" ∧ urlPointer = "url" ∧ headerPointer = "header" ∧
    Escape "~" = "~0" ∧ Escape "/" = "~1" ∧
    (∀ (c : Char) (s : String), Escape (String.mk (c :: s.data)) =
      String.mk ((if c = '~' then ['~', '0'] else if c = '/' then ['~', '1'] else [c]) ++
        (Escape s).data)) := by
  have hb := build_eq_rfc segments
  exact ⟨by unfold NewBodyPointer; rw [hb], by unfold NewURLPointer; rw [hb],
    by unfold NewHeaderPointer; rw [hb], rfl, rfl, rfl, by decide, by decide,
    Escape_cons⟩

/-- Claim C10: an `array_index` or `string_index` record whose numeric
literal denotes an exact integer outside the signed 64-bit range fails the
decode with a range error at the record's position, and every index
payload a successful dispatch produces is exactly the integer denoted by
the record's literal, inside the signed 64-bit range. -/
theorem C10_int64_exact (gs : List genericStep) (pos : Nat) (g : genericStep)
    (hget : gs[pos]? = some g)
    (hpre : ∃ T, unmarshalFrom 0 [] (gs.take pos) = .ok T) :
    ((g.Kind = "array_index" ∨ g.Kind = "string_index") →
       ∀ (lit : String) (n : Int), g.Value = some (.num lit) →
       plainIntValue lit = some n → (n < -(2 ^ 63) ∨ 2 ^ 63 ≤ n) →
       unmarshalLoop gs = .error (.numError pos .errRange)) ∧
    (∀ i : Int,
       (decodeGenericStep pos g = .ok (.ArrayIndexStep i) ∨
        decodeGenericStep pos g = .ok (.StringIndexStep i)) →
       -(2 ^ 63) ≤ i ∧ i < 2 ^ 63 ∧
         ∃ lit, g.Value = some (.num lit) ∧ plainIntValue lit = some i) := by
  constructor
  · intro hk lit n hv hn hout
    have hr := ParseInt64_range lit n hn hout
    refine unmarshalLoop_error_at gs pos g _ hget ?_ hpre
    rcases hk with hk | hk <;> simp [decodeGenericStep, hk, hv, hr]
  · intro i hi
    exact decodeGenericStep_index_inv pos g i hi

/-- Witness for C10 at the literal of 2 to the 63rd, one past the largest
int64. -/
theorem C10_int64_exact_witness :
    plainIntValue "9223372036854775808" = some (2 ^ 63) ∧
      unmarshalLoop [⟨"array_index", some (.num "9223372036854775808")⟩] =
        .error (.numError 0 .errRange) :=
  ⟨by decide,
    (C10_int64_exact [⟨"array_index", some (.num "9223372036854775808")⟩] 0
        ⟨"array_index", some (.num "9223372036854775808")⟩ rfl ⟨[], rfl⟩).1
      (Or.inl rfl) "9223372036854775808" (2 ^ 63) rfl (by decide)
      (Or.inr le_rfl)⟩

end apidiags
